import Mathlib


/-!
Verification development for the Discraft relay protocol core
(frame codec, partitioning, aggregation, reassembly cache).

Rust sources embedded here:
  * `src/message.rs`      — namespace `message` (Message, Text, part::Part, base85 payload codec)
  * `src/partitioning.rs` — namespace `partitioning` (Partitioner, Part, Aggregator)
  * `src/discord.rs`      — namespace `discord` (reassembly cache, inbound handler)

The newer-iteration `Message` API used by `partitioning.rs`, `discord.rs` and
`sockets.rs` (`payload()`, `LENGTH_DELIMITER`, `payload_bytes_to_string`,
`payload_string_to_bytes`, `get_header_size`, `from_string` returning a list,
`is_halt_message`, `make_halt_message`) is not present in the sources; those
definitions live in namespace `wire` and are modelled from the specification,
each marked `Modelled from the spec:` in its doc comment.

Bytes are `Nat` with explicit `< 256` hypotheses where byte-ness matters;
text is `List Char`; fallible operations return `Except MessageError`.
All definitions are executable (fuel is used instead of well-founded
recursion so that concrete inputs evaluate by `decide`/`rfl`).
-/

/-- Digit character for a value below ten (ASCII 48 .. 57). -/
def natDigitChar (n : Nat) : Char := Char.ofNat (48 + n)

/-- Fuel-driven decimal printer (mirrors Rust `usize::to_string`); the fuel
branch is unreachable for `fuel ≥ n`. -/
def natToStringGo : Nat → Nat → List Char → List Char
  | 0, n, acc => natDigitChar (n % 10) :: acc
  | fuel + 1, n, acc =>
    if n < 10 then natDigitChar n :: acc
    else natToStringGo fuel (n / 10) (natDigitChar (n % 10) :: acc)

/-- Decimal representation of a natural number, as a character list. -/
def natToString (n : Nat) : List Char := natToStringGo n n []

/-- Numeric value of a decimal digit character, `none` for anything else. -/
def digitVal? (c : Char) : Option Nat :=
  if 48 ≤ c.toNat ∧ c.toNat ≤ 57 then some (c.toNat - 48) else none

/-- Accumulating decimal parser over a character list. -/
def parseNatGo (acc : Nat) : List Char → Option Nat
  | [] => some acc
  | c :: cs =>
    match digitVal? c with
    | some v => parseNatGo (acc * 10 + v) cs
    | none => none

/-- Mirrors Rust `str::parse::<usize>`: fails on the empty string and on any
non-digit character (the rarely used leading `+` form is not modelled; no
input in this development contains it). -/
def parseNat? : List Char → Option Nat
  | [] => none
  | c :: cs => parseNatGo 0 (c :: cs)

/-- ASCII whitespace test backing the model of Rust `str::trim` (all strings
handled by this program are ASCII). -/
def isWsChar (c : Char) : Bool := c.toNat = 32 ∨ (9 ≤ c.toNat ∧ c.toNat ≤ 13)

/-- Model of Rust `str::trim`: strip leading and trailing whitespace. -/
def rustTrim (s : List Char) : List Char :=
  ((s.dropWhile isWsChar).reverse.dropWhile isWsChar).reverse

/-- Model of Rust `str::split(sep)`: split at every separator, keeping empty
pieces (so the result is always non-empty). -/
def splitChar (sep : Char) : List Char → List (List Char)
  | [] => [[]]
  | c :: cs =>
    let rest := splitChar sep cs
    if c = sep then [] :: rest
    else
      match rest with
      | [] => [[c]]
      | r :: rs => (c :: r) :: rs

/-- Uppercase hexadecimal digit character for a value below sixteen. -/
def hexDigitChar (k : Nat) : Char := Char.ofNat (if k < 10 then 48 + k else 55 + k)

/-- Value of a hexadecimal digit character (Rust `from_str_radix(_, 16)`
accepts both cases), `none` for anything else. -/
def hexVal? (c : Char) : Option Nat :=
  if 48 ≤ c.toNat ∧ c.toNat ≤ 57 then some (c.toNat - 48)
  else if 65 ≤ c.toNat ∧ c.toNat ≤ 70 then some (c.toNat - 55)
  else if 97 ≤ c.toNat ∧ c.toNat ≤ 102 then some (c.toNat - 87)
  else none

/-- Accumulating hexadecimal parser over a character list. -/
def parseHexGo (acc : Nat) : List Char → Option Nat
  | [] => some acc
  | c :: cs =>
    match hexVal? c with
    | some v => parseHexGo (acc * 16 + v) cs
    | none => none

/-- Mirrors Rust `usize::from_str_radix(s, 16)`: fails on the empty string and
on any non-hex-digit character. -/
def parseHex? : List Char → Option Nat
  | [] => none
  | c :: cs => parseHexGo 0 (c :: cs)

/-- Two-digit uppercase hexadecimal rendering of a byte (Rust `{:02X}` for
values below 256). -/
def hex2 (b : Nat) : List Char := [hexDigitChar (b / 16), hexDigitChar (b % 16)]

-- ----------------------------------------------------------------
-- Errors (src/message.rs `MessageError`, plus the `Aggregation` kind used by
-- src/partitioning.rs)
-- ----------------------------------------------------------------

deriving instance DecidableEq for Except


/-- The kind of a `MessageError`, used to state which error family a failing
operation reports. -/
inductive ErrorKind
  | Direction
  | Decode
  | Partitioning
  | Aggregation
  | Merging
deriving DecidableEq

/-- `MessageError` of src/message.rs; `partitioning.rs` additionally uses the
`Aggregation` variant (its declaring iteration of message.rs is not in the
sources, so the variant is included here). -/
inductive MessageError
  | Direction (msg : String)
  | Decode (msg : String)
  | Partitioning (msg : String)
  | Aggregation (msg : String)
  | Merging (msg : String)
deriving DecidableEq

/-- Kind of an error value. -/
def MessageError.kind : MessageError → ErrorKind
  | .Direction _ => .Direction
  | .Decode _ => .Decode
  | .Partitioning _ => .Partitioning
  | .Aggregation _ => .Aggregation
  | .Merging _ => .Merging

/-- Kind of the error of a failed computation, `none` on success. -/
def errKind? {α : Type} : Except MessageError α → Option ErrorKind
  | .error e => some e.kind
  | .ok _ => none

-- ----------------------------------------------------------------
-- The external `base85` crate (RFC 1924 alphabet): big-endian 4-byte groups
-- encoded as 5 digits; a trailing group of n bytes becomes n+1 digits; the
-- decoder pads missing digits of a trailing group with the maximal digit 84.
-- ----------------------------------------------------------------

/-- RFC 1924 base85 alphabet. -/
def b85chars : List Char :=
  ("0123456789ABCDEFGHIJKLMNOPQRSTUVWXYZabcdefghijklmnopqrstuvwxyz" ++
   "!#$%&()*+-;<=>?@^_`\x7b|\x7d~").toList

/-- Character for a base85 digit value. -/
def b85encodeChar (d : Nat) : Char := b85chars.getD d '0'

/-- Digit value of a base85 character, `none` for characters outside the
alphabet. -/
def b85decodeChar (c : Char) : Option Nat := b85chars.findIdx? (· == c)

/-- The five base-85 digits of a 32-bit value, most significant first. -/
def b85digits (v : Nat) : List Nat :=
  [v / 52200625 % 85, v / 614125 % 85, v / 7225 % 85, v / 85 % 85, v % 85]

/-- Big-endian 32-bit value of four bytes. -/
def b85val (b0 b1 b2 b3 : Nat) : Nat := ((b0 * 256 + b1) * 256 + b2) * 256 + b3

/-- The four big-endian bytes of a 32-bit value. -/
def v4bytes (v : Nat) : List Nat :=
  [v / 16777216 % 256, v / 65536 % 256, v / 256 % 256, v % 256]

/-- Base-85 value of five digits, most significant first. -/
def b85dval (d0 d1 d2 d3 d4 : Nat) : Nat :=
  (((d0 * 85 + d1) * 85 + d2) * 85 + d3) * 85 + d4

/-- `base85::encode`. -/
def b85encode : List Nat → List Char
  | [] => []
  | b0 :: b1 :: b2 :: b3 :: rest =>
    (b85digits (b85val b0 b1 b2 b3)).map b85encodeChar ++ b85encode rest
  | [b0] => ((b85digits (b85val b0 0 0 0)).map b85encodeChar).take 2
  | [b0, b1] => ((b85digits (b85val b0 b1 0 0)).map b85encodeChar).take 3
  | [b0, b1, b2] => ((b85digits (b85val b0 b1 b2 0)).map b85encodeChar).take 4

/-- `base85::decode` (`none` models the crate's decode error; a leftover chunk
of one character cannot arise from `encode` and is rejected). -/
def b85decode : List Char → Option (List Nat)
  | [] => some []
  | c0 :: c1 :: c2 :: c3 :: c4 :: rest =>
    match b85decodeChar c0, b85decodeChar c1, b85decodeChar c2,
        b85decodeChar c3, b85decodeChar c4 with
    | some d0, some d1, some d2, some d3, some d4 =>
      match b85decode rest with
      | some bs => some (v4bytes (b85dval d0 d1 d2 d3 d4) ++ bs)
      | none => none
    | _, _, _, _, _ => none
  | [c0, c1] =>
    match b85decodeChar c0, b85decodeChar c1 with
    | some d0, some d1 => some ((v4bytes (b85dval d0 d1 84 84 84)).take 1)
    | _, _ => none
  | [c0, c1, c2] =>
    match b85decodeChar c0, b85decodeChar c1, b85decodeChar c2 with
    | some d0, some d1, some d2 => some ((v4bytes (b85dval d0 d1 d2 84 84)).take 2)
    | _, _, _ => none
  | [c0, c1, c2, c3] =>
    match b85decodeChar c0, b85decodeChar c1, b85decodeChar c2, b85decodeChar c3 with
    | some d0, some d1, some d2, some d3 =>
      some ((v4bytes (b85dval d0 d1 d2 d3 84)).take 3)
    | _, _, _, _ => none
  | [_] => none

namespace message


/-- `MessageDirection` of src/message.rs. -/
inductive MessageDirection
  | Clientbound
  | Serverbound
deriving DecidableEq

namespace MessageDirection


/-- `MessageDirection::CLIENTBOUND_HEADER`. -/
def CLIENTBOUND_HEADER : List Char := "**Squidward says**:".toList

/-- `MessageDirection::SERVERBOUND_HEADER`. -/
def SERVERBOUND_HEADER : List Char := "**Cthulhu says**:".toList

/-- `MessageDirection::encode_direction`. -/
def encode_direction : MessageDirection → List Char
  | .Clientbound => CLIENTBOUND_HEADER
  | .Serverbound => SERVERBOUND_HEADER

/-- `TryFrom<&str> for MessageDirection`: prefix match, clientbound first. -/
def tryFrom (value : List Char) : Except MessageError MessageDirection :=
  if CLIENTBOUND_HEADER.isPrefixOf value then .ok .Clientbound
  else if SERVERBOUND_HEADER.isPrefixOf value then .ok .Serverbound
  else .error (.Direction "unknown direction header")

/-- `MessageDirection::decode_direction`. -/
def decode_direction (text : List Char) : Except MessageError MessageDirection :=
  tryFrom text

end MessageDirection

namespace part


/-- `part::Part` of src/message.rs (fields are private in Rust; the only
constructor used there is `new`). -/
structure Part where
  current : Nat
  total : Nat
deriving DecidableEq

/-- `Part::UPPER_BOUND`. -/
def Part.UPPER_BOUND : Nat := 255

/-- `Part::PARTITIONING_LENGTH`. -/
def Part.PARTITIONING_LENGTH : Nat := 5

/-- `part::Part::new`, with the checks in source order. -/
def Part.new (current total : Nat) : Except MessageError Part :=
  if current < 1 then .error (.Partitioning "current cannot be zero")
  else if current > Part.UPPER_BOUND then
    .error (.Partitioning "current part is greater than the upper bound")
  else if total > Part.UPPER_BOUND then
    .error (.Partitioning "total part is greater than the upper bound")
  else if current > total then
    .error (.Partitioning "current part is less then the total part")
  else .ok ⟨current, total⟩

/-- `part::Part::encode_partitioning`: `format!("{:02X}/{:02X}", ...)`. -/
def Part.encode_partitioning (p : Part) : List Char :=
  hex2 p.current ++ '/' :: hex2 p.total

/-- Token handling of `part::Part::decode_partitioning` (the Rust code walks
the `split('/')` iterator; here the token list is inspected directly).
Note that the parses use `str::parse` — DECIMAL — although the encoder wrote
hexadecimal digits. -/
def Part.decode_partitioning_tokens (tokens : List (List Char)) : Except MessageError Part :=
  match tokens with
  | [] => .error (.Partitioning "missing current total part of partitioning string")
  | cur :: rest =>
    match parseNat? cur with
    | none => .error (.Partitioning "failed to parse current into number")
    | some current =>
      match rest with
      | [] => .error (.Partitioning "missing total part of partitioning string")
      | tot :: rest2 =>
        match parseNat? tot with
        | none => .error (.Partitioning "failed to parse total into number")
        | some total =>
          if rest2 ≠ [] then
            .error (.Partitioning "partitioning string contains extra data")
          else Part.new current total

/-- `part::Part::decode_partitioning`. -/
def Part.decode_partitioning (text : List Char) : Except MessageError Part :=
  if text.length < Part.PARTITIONING_LENGTH then
    .error (.Partitioning
      "partitioning string malformed, string smaller than 5 (4 hex digits + sep)")
  else Part.decode_partitioning_tokens (splitChar '/' (text.take Part.PARTITIONING_LENGTH))

end part


/-- `Text` of src/message.rs. -/
structure Text where
  all : List Char
  direction : List Char
  partitioning : List Char
  data : List Char
deriving DecidableEq

/-- `Text::encode_data`: base85. -/
def Text.encode_data (data : List Nat) : List Char := b85encode data

/-- `Text::decode_data`: base85. -/
def Text.decode_data (string : List Char) : Except MessageError (List Nat) :=
  match b85decode string with
  | some bs => .ok bs
  | none => .error (.Decode "failed to decode base85 string")

/-- `Text::new`. -/
def Text.new (direction : MessageDirection) (p : part.Part) (data : List Nat) : Text :=
  ⟨MessageDirection.encode_direction direction ++ part.Part.encode_partitioning p
      ++ Text.encode_data data,
    MessageDirection.encode_direction direction,
    part.Part.encode_partitioning p,
    Text.encode_data data⟩

/-- `Message` of src/message.rs. -/
structure Message where
  data : List Nat
  direction : MessageDirection
  part : part.Part
  text : Text
deriving DecidableEq

/-- `Message::from_bytes` (`part::Part::new(1, 1).unwrap()` gives `⟨1, 1⟩`). -/
def Message.from_bytes (data : List Nat) (direction : MessageDirection) : Message :=
  ⟨data, direction, ⟨1, 1⟩, Text.new direction ⟨1, 1⟩ data⟩

/-- `Message::from_string` (byte offsets become `List.drop`; all the texts
involved are ASCII). -/
def Message.from_string (s : List Char) : Except MessageError Message :=
  match MessageDirection.tryFrom s with
  | .error e => .error e
  | .ok direction =>
    match part.Part.decode_partitioning
        (s.drop (MessageDirection.encode_direction direction).length) with
    | .error e => .error e
    | .ok p =>
      match Text.decode_data
          ((s.drop (MessageDirection.encode_direction direction).length).drop
            part.Part.PARTITIONING_LENGTH) with
      | .error e => .error e
      | .ok data => .ok ⟨data, direction, p, Text.new direction p data⟩

/-- `Message::to_bytes`. -/
def Message.to_bytes (m : Message) : List Nat := m.data

/-- `Message::to_string`. -/
def Message.to_string (m : Message) : List Char := m.text.all

/-- `Message::merge_partitions`. The Rust code insertion-sorts a copy `arr`
of the input by `part.current` but then builds the payload from the original
`partitions` slice, so the sorted copy never influences the result and is not
modelled. -/
def Message.merge_partitions (partitions : List Message) : Except MessageError Message :=
  match partitions with
  | [] => .error (.Merging "there must be at least one element")
  | p0 :: _ =>
    let buffer := (partitions.map Message.to_bytes).flatten
    .ok ⟨buffer, p0.direction, ⟨1, 1⟩, Text.new p0.direction ⟨1, 1⟩ buffer⟩

end message


/-- Modelled from the spec: the record shape the spec claims for a frame text,
`<decimal-length><delimiter><direction-tag><part-field><encoded-payload>`,
where `decimal-length` is the decimal character count of everything after the
delimiter; the delimiter is `*` (src/partitioning.rs reads the length field
"until the `*` delimiter is found"). -/
def specLengthPrefixedText (m : message.Message) : List Char :=
  natToString (message.MessageDirection.encode_direction m.direction
      ++ message.part.Part.encode_partitioning m.part
      ++ message.Text.encode_data m.data).length
    ++ '*' :: (message.MessageDirection.encode_direction m.direction
      ++ message.part.Part.encode_partitioning m.part
      ++ message.Text.encode_data m.data)

namespace partitioning


/-- `Part` of src/partitioning.rs (fields private in Rust, built via `new`). -/
structure Part where
  current : Nat
  total : Nat
deriving DecidableEq

/-- `Part::MAX_TOTAL`. -/
def Part.MAX_TOTAL : Nat := 255

/-- `Part::new` of src/partitioning.rs. -/
def Part.new (current total : Nat) : Except MessageError Part :=
  if current = 0 ∨ current > total then
    .error (.Partitioning "current must be between 1 and total (inclusive).")
  else if total > Part.MAX_TOTAL then
    .error (.Partitioning "total cannot exceed MAX_TOTAL. (too many parts, max is 255)")
  else .ok ⟨current, total⟩

/-- `Part::to_string`: `format!("{:02X}/{:02X} ", ...)` — note the trailing
space. -/
def Part.toString (p : Part) : List Char :=
  hex2 p.current ++ '/' :: (hex2 p.total ++ [' '])

/-- `Part::get_standard_string_length` (lazily computed from `Part::new(1,1)`
in Rust; the value is 6). -/
def Part.get_standard_string_length : Nat := (Part.toString ⟨1, 1⟩).length

/-- Token handling of `Part::from_string` (the Rust code walks the
`split('/')` iterator of the trimmed six-character prefix). -/
def Part.from_string_tokens (tokens : List (List Char)) : Except MessageError Part :=
  match tokens with
  | [] => .error (.Partitioning "Missing 'current' part in partitioning string")
  | cur :: rest =>
    match parseHex? cur with
    | none => .error (.Partitioning "Failed to parse 'current' as a hex number")
    | some current =>
      match rest with
      | [] => .error (.Partitioning "Missing 'total' part in partitioning string")
      | tot :: rest2 =>
        match parseHex? tot with
        | none => .error (.Partitioning "Failed to parse 'total' as a hex number")
        | some total =>
          if rest2 ≠ [] then
            .error (.Partitioning "Partitioning string contains unexpected extra data")
          else Part.new current total

/-- `Part::from_string`. -/
def Part.from_string (text : List Char) : Except MessageError Part :=
  if text.length < Part.get_standard_string_length then
    .error (.Partitioning "Partitioning string malformed: string too small")
  else Part.from_string_tokens
    (splitChar '/' (rustTrim (text.take Part.get_standard_string_length)))

end partitioning

namespace wire


/-- Modelled from the spec: `Message::LENGTH_DELIMITER`, the fixed reserved
delimiter after the decimal length field; `*` per the comment in
`Aggregator::disaggregate` ("Parse the length field until the `*` delimiter
is found"). -/
def LENGTH_DELIMITER : Char := '*'

/-- Modelled from the spec: `Message::payload_bytes_to_string`, the printable
encoding of payload bytes. Modelled as two uppercase hexadecimal digits per
byte: the slice-parity adjustments in `Partitioner::partition` ("if hex is
len odd (badly cut)") assume exactly two characters per byte. -/
def payload_bytes_to_string (data : List Nat) : List Char :=
  (data.map hex2).flatten

/-- Modelled from the spec: `Message::payload_string_to_bytes`, the inverse of
`payload_bytes_to_string`; fails with a `Decode` error on odd length or
non-hexadecimal characters. -/
def payload_string_to_bytes : List Char → Except MessageError (List Nat)
  | [] => .ok []
  | [_] => .error (.Decode "failed to decode hex payload")
  | c1 :: c2 :: rest =>
    match hexVal? c1, hexVal? c2 with
    | some v1, some v2 =>
      match payload_string_to_bytes rest with
      | .ok bs => .ok ((v1 * 16 + v2) :: bs)
      | .error e => .error e
    | _, _ => .error (.Decode "failed to decode hex payload")

/-- `MessageDirection::to_string` of the current iteration: the direction tag
(tags as declared in src/message.rs). -/
def direction_to_string (d : message.MessageDirection) : List Char :=
  message.MessageDirection.encode_direction d

/-- `MessageDirection::from_string` of the current iteration: prefix match,
as `TryFrom<&str>` in src/message.rs. -/
def direction_from_string (s : List Char) : Except MessageError message.MessageDirection :=
  message.MessageDirection.tryFrom s

/-- Modelled from the spec: the current-iteration `Message` — payload bytes,
direction and part; the record text is derived (spec §3: "text is fully
determined by the other three fields"). -/
structure Message where
  data : List Nat
  direction : message.MessageDirection
  part : partitioning.Part
deriving DecidableEq

/-- `Message::payload`. -/
def Message.payload (m : Message) : List Nat := m.data

/-- Modelled from the spec wire grammar (§6): the derived record text
`<decimal-length><delimiter><direction-tag><part-field><encoded-payload>`,
where the length is the character count of everything after the delimiter. -/
def Message.toString (m : Message) : List Char :=
  natToString (direction_to_string m.direction ++ partitioning.Part.toString m.part
      ++ payload_bytes_to_string m.data).length
    ++ LENGTH_DELIMITER :: (direction_to_string m.direction
      ++ partitioning.Part.toString m.part ++ payload_bytes_to_string m.data)

/-- Modelled from the spec (§4.2): `Message::get_header_size` — length-prefix
width (with delimiter) + direction-tag width + part-field width, i.e. the
record length minus the encoded payload length. -/
def Message.get_header_size (m : Message) : Nat :=
  (Message.toString m).length - (payload_bytes_to_string m.data).length

/-- Modelled from the spec: `Message::from_bytes` — a whole frame, part
(1,1). -/
def Message.from_bytes (data : List Nat) (direction : message.MessageDirection) : Message :=
  ⟨data, direction, ⟨1, 1⟩⟩

/-- Modelled from the spec: the reserved halt payload (spec §3: "a single
reserved byte sequence, distinguishable from any application payload by exact
equality"). Its concrete value is not in the sources; only exact-equality
matching matters, so a fixed stand-in value is used. -/
def HALT_PAYLOAD : List Nat := [72, 65, 76, 84]

/-- Modelled from the spec: `Message::is_halt_message` — exact payload
equality with the reserved halt payload. -/
def Message.is_halt_message (m : Message) : Bool := m.data == HALT_PAYLOAD

/-- Modelled from the spec: `Message::make_halt_message` (sockets.rs) — a
whole frame carrying the reserved halt payload. -/
def Message.make_halt_message (d : message.MessageDirection) : Message :=
  Message.from_bytes HALT_PAYLOAD d

/-- One record step, shared by the current-iteration `Message::from_string`
and `Aggregator::disaggregate` (src/partitioning.rs, lines 446-513): scan the
decimal length until the delimiter, read direction tag, fixed-width part
field, then exactly `length - (tag + part)` payload characters. Returns the
parsed pieces plus the offset advance and the loop-counter advance of the
Rust loop (`var_length.len() + delimiter + message_length`). -/
def parse_record (s : List Char) :
    Except MessageError
      (message.MessageDirection × partitioning.Part × List Char × Nat × Nat) :=
  let digits := s.takeWhile (fun c => c != LENGTH_DELIMITER)
  if digits.length < s.length ∧ digits = [] then
    .error (.Aggregation "No digits found for variable length.")
  else
    match parseNat? (rustTrim digits) with
    | none => .error (.Aggregation "Failed to parse the message length.")
    | some n =>
      let rest := s.drop (digits.length + (if digits.length < s.length then 1 else 0))
      match direction_from_string rest with
      | .error e => .error e
      | .ok d =>
        let rest2 := rest.drop (direction_to_string d).length
        match partitioning.Part.from_string rest2 with
        | .error e => .error e
        | .ok pt =>
          let rest3 := rest2.drop (partitioning.Part.toString pt).length
          let payload_len := n - ((direction_to_string d).length
            + (partitioning.Part.toString pt).length)
          if payload_len ≤ rest3.length then
            .ok (d, pt, rest3.take payload_len,
              digits.length + (if digits.length < s.length then 1 else 0)
                + (direction_to_string d).length
                + (partitioning.Part.toString pt).length + payload_len,
              digits.length + 1 + n)
          else .error (.Aggregation "Failed to slice the payload.")

/-- The record loop of `Message::from_string` / `Aggregator::disaggregate`
(`while messages_char_counter < aggregate_message.len()`). `counter_rem` is
the remaining counter budget; the structural fuel (first numeric argument)
only bounds iterations and is unreachable when entered with
`counter budget + 1`, since every successful record advances the counter. -/
def parseLoop
    (build : message.MessageDirection → partitioning.Part → List Char
      → Except MessageError Message) :
    Nat → Nat → List Char → Except MessageError (List Message)
  | 0, _, _ => .ok []
  | fuel + 1, counter_rem, s =>
    if counter_rem = 0 then .ok []
    else
      match parse_record s with
      | .error e => .error e
      | .ok (d, pt, ptext, odelta, cdelta) =>
        match build d pt ptext with
        | .error e => .error e
        | .ok msg =>
          match parseLoop build fuel (counter_rem - cdelta) (s.drop odelta) with
          | .error e => .error e
          | .ok msgs => .ok (msg :: msgs)

/-- Per-record constructor of `Message::from_string`: decode the payload text
and keep the parsed part field. -/
def Message.from_string_build (d : message.MessageDirection) (pt : partitioning.Part)
    (ptext : List Char) : Except MessageError Message :=
  match payload_string_to_bytes ptext with
  | .ok bs => .ok ⟨bs, d, pt⟩
  | .error e => .error e

/-- Modelled from the spec: the current-iteration `Message::from_string` —
parses the zero or more concatenated records of one platform message text,
keeping each record's parsed part field (discord.rs's handler and
`Partitioner::partition` both rely on the parts of the returned messages). -/
def Message.from_string (s : List Char) : Except MessageError (List Message) :=
  parseLoop Message.from_string_build (s.length + 1) s.length s

/-- The record text of given direction, part and payload text:
`<decimal-length><delimiter><direction-tag><part-field><payload-text>`.
`Message.toString` is this applied to a message's own fields, and
`Partitioner::partition` builds exactly this string for each part. -/
def recordText (d : message.MessageDirection) (pt : partitioning.Part)
    (ptext : List Char) : List Char :=
  natToString (direction_to_string d ++ partitioning.Part.toString pt ++ ptext).length
    ++ LENGTH_DELIMITER :: (direction_to_string d ++ partitioning.Part.toString pt ++ ptext)

end wire

namespace discord


/-- `DiscordBot::MAX_MESSAGE_LENGTH_ALLOWED` of src/discord.rs. -/
def DiscordBot.MAX_MESSAGE_LENGTH_ALLOWED : Nat := 1900

end discord

namespace partitioning


/-- `Partitioner::check_is_partitionable`. -/
def Partitioner.check_is_partitionable (m : wire.Message) (limit : Nat) :
    Except MessageError (List Char) :=
  if limit = 0 then .error (.Partitioning "partitioning divisor cannot be zero")
  else if limit ≤ m.get_header_size then
    .error (.Partitioning "length limit is too small to accommodate the header")
  else .ok (wire.payload_bytes_to_string m.data)

/-- `Partitioner::compute_total_parts`. -/
def Partitioner.compute_total_parts (limit header_size payload_len : Nat) : Nat × Nat :=
  let payload_slice_size := limit - header_size
  let whole_parts := payload_len / payload_slice_size
  let remainder := payload_len % payload_slice_size
  (if remainder > 0 then whole_parts + 1 else whole_parts, payload_slice_size)

/-- The `for i in 1..=total_parts` loop of `Partitioner::partition`
(src/partitioning.rs lines 110-167), including its `offset`, `neg_offset` and
parity adjustments, iterated over the list of part indices. -/
def Partitioner.partitionGo (payload : List Char) (direction : message.MessageDirection)
    (total_parts payload_slice_size : Nat) :
    List Nat → Nat → Nat → Except MessageError (List wire.Message)
  | [], _, _ => .ok []
  | i :: is, offset, neg_offset =>
    match Part.new i total_parts with
    | .error e => .error e
    | .ok pt =>
      let start := (i - 1) * payload_slice_size
      let endIdx := if i ≠ total_parts then i * payload_slice_size - neg_offset
        else payload.length
      let slice1 := (payload.drop start).take (endIdx - start)
      let slice2 := if slice1.length % 2 ≠ 0 ∧ i ≠ total_parts then
          (payload.drop offset).take (i * payload_slice_size - 1 - offset)
        else slice1
      let neg_offset2 := if slice1.length % 2 ≠ 0 ∧ i ≠ total_parts then neg_offset + 1
        else neg_offset
      let offset2 := if slice2.length % 2 = 0 ∧ i ≠ total_parts then offset + slice2.length
        else offset
      let slice3 := if slice2.length % 2 ≠ 0 ∧ i = total_parts then slice2 ++ ['0']
        else slice2
      let part_buffer := wire.direction_to_string direction ++ Part.toString pt ++ slice3
      let record := natToString part_buffer.length ++ wire.LENGTH_DELIMITER :: part_buffer
      match wire.Message.from_string record with
      | .error e => .error e
      | .ok msgs =>
        match Partitioner.partitionGo payload direction total_parts payload_slice_size
            is offset2 neg_offset2 with
        | .error e => .error e
        | .ok restMsgs => .ok (msgs ++ restMsgs)

/-- `Partitioner::partition` (the live `testing2` path that returns before the
dead code after `return Ok(parts);`). -/
def Partitioner.partition (m : wire.Message) (limit : Nat) :
    Except MessageError (List wire.Message) :=
  match Partitioner.check_is_partitionable m limit with
  | .error e => .error e
  | .ok payload =>
    let p := Partitioner.compute_total_parts limit m.get_header_size payload.length
    Partitioner.partitionGo payload m.direction p.1 p.2 (List.range' 1 p.1) 0 0

/-- `Partitioner::merge`: empty input fails (with a `Partitioning`-variant
error in the source); otherwise concatenates payloads in given order and
wraps them as a whole frame with the first part's direction. -/
def Partitioner.merge (parts : List wire.Message) : Except MessageError wire.Message :=
  match parts with
  | [] => .error (.Partitioning "No parts to merge")
  | p0 :: _ =>
    .ok (wire.Message.from_bytes ((parts.map wire.Message.payload).flatten) p0.direction)

/-- The `collect::<Result<Vec<Vec<Message>>>>` over
`Partitioner::partition(m, MAX_MESSAGE_LENGTH_ALLOWED)` in
`Aggregator::aggregate`. -/
def Aggregator.partitionAll : List wire.Message →
    Except MessageError (List (List wire.Message))
  | [] => .ok []
  | m :: ms =>
    match Partitioner.partition m discord.DiscordBot.MAX_MESSAGE_LENGTH_ALLOWED with
    | .error e => .error e
    | .ok p =>
      match Aggregator.partitionAll ms with
      | .error e => .error e
      | .ok ps => .ok (p :: ps)

/-- The greedy packing loop of `Aggregator::aggregate`: flush the buffer
whenever appending the next segment would exceed the platform budget, and
flush any non-empty remainder at the end. -/
def Aggregator.aggregateGo : List wire.Message → List (List Char) → List Char
    → List (List Char)
  | [], aggregated, buffer => if buffer ≠ [] then aggregated ++ [buffer] else aggregated
  | part :: rest, aggregated, buffer =>
    let segment := wire.Message.toString part
    if buffer.length + segment.length > discord.DiscordBot.MAX_MESSAGE_LENGTH_ALLOWED then
      Aggregator.aggregateGo rest (aggregated ++ [buffer]) segment
    else Aggregator.aggregateGo rest aggregated (buffer ++ segment)

/-- `Aggregator::aggregate`. -/
def Aggregator.aggregate (messages : List wire.Message) :
    Except MessageError (List (List Char)) :=
  match Aggregator.partitionAll messages with
  | .error e => .error e
  | .ok parts => .ok (Aggregator.aggregateGo parts.flatten [] [])

/-- Per-record constructor of `Aggregator::disaggregate`: the message is
rebuilt with `Message::from_bytes`, discarding the parsed part field. -/
def Aggregator.disaggregate_build (d : message.MessageDirection) (_pt : partitioning.Part)
    (ptext : List Char) : Except MessageError wire.Message :=
  match wire.payload_string_to_bytes ptext with
  | .ok bs => .ok (wire.Message.from_bytes bs d)
  | .error e => .error e

def Aggregator.disaggregate (aggregate_message : List Char) :
    Except MessageError (List wire.Message) :=
  wire.parseLoop Aggregator.disaggregate_build
    (aggregate_message.length + 1) aggregate_message.length aggregate_message

/-- Applying `Aggregator::disaggregate` to each aggregated string and
concatenating the results in order (the composition claimed by the spec's
aggregate/disaggregate inverse property). -/
def Aggregator.disaggregateAll : List (List Char) → Except MessageError (List wire.Message)
  | [] => .ok []
  | c :: cs =>
    match Aggregator.disaggregate c with
    | .error e => .error e
    | .ok ms =>
      match Aggregator.disaggregateAll cs with
      | .error e => .error e
      | .ok rest => .ok (ms ++ rest)

end partitioning

namespace wire


/-- The concatenated record texts of a list of (direction, part, payload text)
triples. -/
def recordsText
    (specs : List (message.MessageDirection × partitioning.Part × List Char)) : List Char :=
  (specs.map (fun x => recordText x.1 x.2.1 x.2.2)).flatten

end wire

namespace discord


/-- The two run modes of `cli::Mode` (their fields play no role in the
handler logic modelled here). -/
inductive Mode
  | Server
  | Client
deriving DecidableEq

/-- `message_direction_matches_side` of src/discord.rs. -/
def message_direction_matches_side (current_side : Mode)
    (message_side : message.MessageDirection) : Bool :=
  let is_server : Bool := match current_side with
    | .Server => true
    | .Client => false
  let is_serverbound : Bool := match message_side with
    | .Serverbound => true
    | .Clientbound => false
  is_server == is_serverbound

/-- The global mutable state of src/cache.rs: the message cache (a map from
key to a buffered message list with its refresh instant, modelled as an
association list with `Nat` timestamps) and the current key. -/
structure CacheState where
  message_cache : List (Nat × (List wire.Message × Nat))
  current_key : Nat
deriving DecidableEq

/-- `HashMap::get` on the association-list model. -/
def cacheGet : List (Nat × (List wire.Message × Nat)) → Nat
    → Option (List wire.Message × Nat)
  | [], _ => none
  | (k, v) :: rest, key => if k = key then some v else cacheGet rest key

/-- `HashMap::insert` on the association-list model: replace or add. -/
def cacheInsert : List (Nat × (List wire.Message × Nat)) → Nat
    → (List wire.Message × Nat) → List (Nat × (List wire.Message × Nat))
  | [], key, v => [(key, v)]
  | (k, w) :: rest, key, v =>
    if k = key then (k, v) :: rest else (k, w) :: cacheInsert rest key v

/-- `cache_or_merge_message` of src/discord.rs (lines 323-393) as a pure
state transition; `now` stands for `Instant::now()`. The branch order is the
source's: the different-total branch, then the next-part branch (which
inserts `(vec![message], now)`, replacing the buffer), then the last-part
branch, and otherwise the `Merging` error. -/
def cache_or_merge_message (st : CacheState) (now : Nat) (message : wire.Message) :
    Except MessageError (Option wire.Message × CacheState) :=
  if message.part.total = 1 then .ok (some message, st)
  else
    let messages : List wire.Message × Nat := ([message], now)
    if st.message_cache = [] then
      .ok (none, ⟨cacheInsert st.message_cache st.current_key messages, st.current_key⟩)
    else
      match cacheGet st.message_cache st.current_key with
      | none => .error (.Merging "unknown key in cache")
      | some cached_messages =>
        match cached_messages.1.getLast? with
        | none => .error (.Merging "expected message, got None")
        | some last_cached_message =>
          if last_cached_message.part.total ≠ message.part.total then
            .ok (none, ⟨cacheInsert st.message_cache (st.current_key + 1) messages,
              st.current_key + 1⟩)
          else if last_cached_message.part.current = message.part.current - 1 then
            .ok (none, ⟨cacheInsert st.message_cache st.current_key messages,
              st.current_key⟩)
          else if last_cached_message.part.total = message.part.current then
            match partitioning.Partitioner.merge (cached_messages.1 ++ [message]) with
            | .ok merged => .ok (some merged, ⟨st.message_cache, st.current_key + 1⟩)
            | .error e => .error e
          else .error (.Merging "Unexpected logic flow :shrug:")

/-- The per-decoded-frame body of `Handler::message` (src/discord.rs lines
255-299) as a pure function: the halt check sends the stop signal but does
not return, then the direction filter returns early, then
`cache_or_merge_message` runs and a `Some` result is enqueued to the TCP
channel. Returns (stop signal sent, frame enqueued to TCP, new cache
state). -/
def Handler.handle_one (side : Mode) (st : CacheState) (now : Nat)
    (message : wire.Message) : Bool × Option wire.Message × CacheState :=
  let stop : Bool := wire.Message.is_halt_message message
  if ¬ message_direction_matches_side side message.direction then (stop, none, st)
  else
    match cache_or_merge_message st now message with
    | .ok (maybe_message, st2) => (stop, maybe_message, st2)
    | .error _ => (stop, none, st)

end discord

-- ----------------------------------------------------------------
-- Lemmas about the decimal printer/parser
-- ----------------------------------------------------------------

theorem natToStringGo_append (fuel n : Nat) (acc : List Char) :
    natToStringGo fuel n acc = natToStringGo fuel n [] ++ acc := by
  induction fuel generalizing n acc with
  | zero => simp [natToStringGo]
  | succ fuel ih =>
    by_cases h : n < 10
    · simp [natToStringGo, h]
    · rw [natToStringGo, if_neg h, natToStringGo, if_neg h,
        ih (n / 10) (natDigitChar (n % 10) :: acc), ih (n / 10) [natDigitChar (n % 10)]]
      simp

theorem natToStringGo_irrel : ∀ n f1 f2, n ≤ f1 → n ≤ f2 →
    natToStringGo f1 n [] = natToStringGo f2 n [] := by
  intro n
  induction n using Nat.strong_induction_on with
  | _ n ih =>
    intro f1 f2 h1 h2
    match f1, f2 with
    | 0, 0 => rfl
    | 0, f2 + 1 =>
      have hn : n = 0 := by omega
      subst hn
      simp [natToStringGo]
    | f1 + 1, 0 =>
      have hn : n = 0 := by omega
      subst hn
      simp [natToStringGo]
    | f1 + 1, f2 + 1 =>
      by_cases h : n < 10
      · simp [natToStringGo, h]
      · rw [natToStringGo, if_neg h, natToStringGo, if_neg h,
          natToStringGo_append f1, natToStringGo_append f2]
        rw [ih (n / 10) (by omega) f1 f2 (by omega) (by omega)]

theorem natToString_lt10 {n : Nat} (h : n < 10) : natToString n = [natDigitChar n] := by
  unfold natToString
  match n, h with
  | 0, _ => rfl
  | n + 1, h => rw [natToStringGo, if_pos h]

theorem natToString_ge10 {n : Nat} (h : 10 ≤ n) :
    natToString n = natToString (n / 10) ++ [natDigitChar (n % 10)] := by
  unfold natToString
  match n, h with
  | n + 1, h =>
    rw [natToStringGo, if_neg (by omega), natToStringGo_append]
    congr 1
    exact natToStringGo_irrel ((n + 1) / 10) n ((n + 1) / 10) (by omega) (by omega)

theorem digitVal?_natDigitChar {k : Nat} (h : k < 10) :
    digitVal? (natDigitChar k) = some k := by
  interval_cases k <;> rfl

theorem natToString_mem (n : Nat) :
    ∀ c ∈ natToString n, 48 ≤ c.toNat ∧ c.toNat ≤ 57 := by
  induction n using Nat.strong_induction_on with
  | _ n ih =>
    by_cases h : n < 10
    · rw [natToString_lt10 h]
      intro c hc
      simp at hc
      subst hc
      interval_cases n <;> simp [natDigitChar]
    · rw [natToString_ge10 (by omega)]
      intro c hc
      rcases List.mem_append.mp hc with hc | hc
      · exact ih (n / 10) (Nat.div_lt_self (by omega) (by omega)) c hc
      · simp at hc
        subst hc
        have : n % 10 < 10 := Nat.mod_lt _ (by omega)
        interval_cases h10 : n % 10 <;> simp [natDigitChar]

theorem natToString_ne_nil (n : Nat) : natToString n ≠ [] := by
  by_cases h : n < 10
  · rw [natToString_lt10 h]; simp
  · rw [natToString_ge10 (by omega)]; simp

theorem parseNatGo_natToString (n : Nat) :
    ∀ a r, parseNatGo a (natToString n ++ r) =
      parseNatGo (a * 10 ^ (natToString n).length + n) r := by
  induction n using Nat.strong_induction_on with
  | _ n ih =>
    intro a r
    by_cases h : n < 10
    · rw [natToString_lt10 h]
      simp [parseNatGo, digitVal?_natDigitChar h]
    · rw [natToString_ge10 (by omega), List.length_append, List.append_assoc]
      rw [ih (n / 10) (Nat.div_lt_self (by omega) (by omega)) a _]
      have hm : n % 10 < 10 := Nat.mod_lt _ (by omega)
      simp only [List.cons_append, List.nil_append, parseNatGo, digitVal?_natDigitChar hm]
      congr 1
      have hdm : 10 * (n / 10) + n % 10 = n := Nat.div_add_mod n 10
      calc (a * 10 ^ (natToString (n / 10)).length + n / 10) * 10 + n % 10
      _ = a * (10 ^ (natToString (n / 10)).length * 10) + (10 * (n / 10) + n % 10) := by ring
      _ = a * 10 ^ ((natToString (n / 10)).length + 1) + n := by rw [hdm, pow_succ]
      _ = a * 10 ^ ((natToString (n / 10)).length + [natDigitChar (n % 10)].length) + n := rfl

theorem parseNat?_natToString (n : Nat) : parseNat? (natToString n) = some n := by
  have hne := natToString_ne_nil n
  obtain ⟨c, cs, hc⟩ : ∃ c cs, natToString n = c :: cs := by
    cases h : natToString n with
    | nil => exact absurd h hne
    | cons c cs => exact ⟨c, cs, rfl⟩
  have := parseNatGo_natToString n 0 []
  rw [List.append_nil] at this
  rw [parseNat?.eq_def]
  rw [hc] at this ⊢
  simpa [parseNatGo] using this

theorem rustTrim_digits (l : List Char) (h : ∀ c ∈ l, 48 ≤ c.toNat ∧ c.toNat ≤ 57) :
    rustTrim l = l := by
  have hnw : ∀ c ∈ l, isWsChar c = false := by
    intro c hc
    have := h c hc
    simp [isWsChar]
    omega
  have h1 : l.dropWhile isWsChar = l := by
    cases l with
    | nil => rfl
    | cons c cs => rw [List.dropWhile_cons_of_neg]; simp [hnw c (by simp)]
  rw [rustTrim, h1]
  have h2 : l.reverse.dropWhile isWsChar = l.reverse := by
    cases hr : l.reverse with
    | nil => rfl
    | cons c cs =>
      rw [List.dropWhile_cons_of_neg]
      have : c ∈ l.reverse := by rw [hr]; simp
      simp [hnw c (List.mem_reverse.mp this)]
  rw [h2, List.reverse_reverse]

-- ----------------------------------------------------------------
-- Lemmas about hexadecimal digits and splitting
-- ----------------------------------------------------------------

set_option maxRecDepth 8000 in
theorem parseHex?_hex2' : ∀ b, b < 256 → parseHex? (hex2 b) = some b := by
  decide

theorem parseHex?_hex2 {b : Nat} (h : b < 256) : parseHex? (hex2 b) = some b :=
  parseHex?_hex2' b h

set_option maxRecDepth 8000 in
theorem hex2_chars : ∀ b, b < 256 → ∀ c ∈ hex2 b,
    (48 ≤ c.toNat ∧ c.toNat ≤ 57) ∨ (65 ≤ c.toNat ∧ c.toNat ≤ 70) := by
  decide

theorem hex2_length (b : Nat) : (hex2 b).length = 2 := rfl

theorem splitChar_ne_nil (sep : Char) (l : List Char) : splitChar sep l ≠ [] := by
  induction l with
  | nil => simp [splitChar]
  | cons c cs ih =>
    rw [splitChar]
    by_cases h : c = sep
    · simp [h]
    · simp only [if_neg h]
      match hr : splitChar sep cs with
      | [] => simp
      | r :: rs => simp

theorem splitChar_no_sep {sep : Char} : ∀ {l : List Char}, (∀ c ∈ l, c ≠ sep) →
    splitChar sep l = [l] := by
  intro l
  induction l with
  | nil => intro _; rfl
  | cons c cs ih =>
    intro h
    rw [splitChar]
    have hc : ¬ c = sep := h c (by simp)
    simp only [if_neg hc]
    rw [ih (fun x hx => h x (by simp [hx]))]

theorem splitChar_append_sep {sep : Char} : ∀ {xs : List Char}, (∀ c ∈ xs, c ≠ sep) →
    ∀ ys, splitChar sep (xs ++ sep :: ys) = xs :: splitChar sep ys := by
  intro xs
  induction xs with
  | nil =>
    intro _ ys
    rw [List.nil_append, splitChar]
    simp
  | cons c cs ih =>
    intro h ys
    have hc : ¬ c = sep := h c (by simp)
    rw [List.cons_append, splitChar]
    simp only [if_neg hc]
    rw [ih (fun x hx => h x (by simp [hx])) ys]

theorem takeWhile_append_stop {p : Char → Bool} : ∀ {xs : List Char}, (∀ c ∈ xs, p c = true) →
    ∀ {y : Char} (ys : List Char), p y = false →
    (xs ++ y :: ys).takeWhile p = xs := by
  intro xs
  induction xs with
  | nil =>
    intro _ y ys hy
    simpa [List.takeWhile_cons] using hy
  | cons c cs ih =>
    intro h y ys hy
    rw [List.cons_append, List.takeWhile_cons, h c (by simp)]
    rw [ih (fun x hx => h x (by simp [hx])) ys hy]
    simp

set_option maxRecDepth 8000 in
theorem b85decodeChar_encodeChar : ∀ d, d < 85 → b85decodeChar (b85encodeChar d) = some d := by
  decide


theorem b85digits_lt (v : Nat) : ∀ d ∈ b85digits v, d < 85 := by
  intro d hd
  simp [b85digits] at hd
  rcases hd with h | h | h | h | h <;> omega

theorem b85dval_digits {v : Nat} (hv : v < 4437053125) :
    b85dval (v / 52200625 % 85) (v / 614125 % 85) (v / 7225 % 85) (v / 85 % 85) (v % 85) = v := by
  have h1 : v / 614125 / 85 = v / 52200625 := by
    rw [Nat.div_div_eq_div_mul]
  have h2 : v / 7225 / 85 = v / 614125 := by
    rw [Nat.div_div_eq_div_mul]
  have h3 : v / 85 / 85 = v / 7225 := by
    rw [Nat.div_div_eq_div_mul]
  simp only [b85dval]
  omega

theorem v4bytes_b85val {b0 b1 b2 b3 : Nat}
    (h0 : b0 < 256) (h1 : b1 < 256) (h2 : b2 < 256) (h3 : b3 < 256) :
    v4bytes (b85val b0 b1 b2 b3) = [b0, b1, b2, b3] := by
  have hc1 : b85val b0 b1 b2 b3 / 256 / 256 = b85val b0 b1 b2 b3 / 65536 := by
    rw [Nat.div_div_eq_div_mul]
  have hc2 : b85val b0 b1 b2 b3 / 65536 / 256 = b85val b0 b1 b2 b3 / 16777216 := by
    rw [Nat.div_div_eq_div_mul]
  simp only [v4bytes, b85val] at *
  simp only [List.cons.injEq, and_true]
  refine ⟨?_, ?_, ?_⟩ <;> omega

theorem extract_byte {t b k : Nat} (hb : b < 256) (ht : t < k) (hk : 0 < k) :
    (t + k * b) / k % 256 = b := by
  rw [Nat.add_mul_div_left _ _ hk, Nat.div_eq_of_lt ht, Nat.zero_add, Nat.mod_eq_of_lt hb]

theorem extract_mid {t b r k : Nat} (hb : b < 256) (ht : t < k) (hk : 0 < k) :
    (t + k * (b + 256 * r)) / k % 256 = b := by
  rw [Nat.add_mul_div_left _ _ hk, Nat.div_eq_of_lt ht, Nat.zero_add,
    Nat.add_mul_mod_self_left, Nat.mod_eq_of_lt hb]

theorem b85_group1_arith {b0 : Nat} (h0 : b0 < 256) :
    (v4bytes (b85dval (b85val b0 0 0 0 / 52200625 % 85) (b85val b0 0 0 0 / 614125 % 85)
      84 84 84)).take 1 = [b0] := by
  set v := b85val b0 0 0 0 with hv
  have hb : v = 16777216 * b0 := by
    simp only [hv, b85val]
    ring
  have hq : v / 614125 / 85 = v / 52200625 := by
    rw [Nat.div_div_eq_div_mul]
  have key : (v / 52200625 % 85) * 85 + v / 614125 % 85 = v / 614125 := by
    omega
  have key2 : ((((v / 52200625 % 85) * 85 + v / 614125 % 85) * 85 + 84) * 85 + 84) * 85 + 84
      = v / 614125 * 614125 + 614124 := by
    rw [key]
    ring
  simp only [v4bytes, b85dval, List.take, List.cons.injEq, and_true]
  rw [key2]
  have hform : v / 614125 * 614125 + 614124 = (614124 - v % 614125) + 16777216 * b0 := by
    omega
  rw [hform]
  exact extract_byte h0 (by omega) (by norm_num)

theorem b85_group2_arith {b0 b1 : Nat} (h0 : b0 < 256) (h1 : b1 < 256) :
    (v4bytes (b85dval (b85val b0 b1 0 0 / 52200625 % 85) (b85val b0 b1 0 0 / 614125 % 85)
      (b85val b0 b1 0 0 / 7225 % 85) 84 84)).take 2 = [b0, b1] := by
  set v := b85val b0 b1 0 0 with hv
  have hb : v = 16777216 * b0 + 65536 * b1 := by
    simp only [hv, b85val]
    ring
  have hq1 : v / 614125 / 85 = v / 52200625 := by
    rw [Nat.div_div_eq_div_mul]
  have hq2 : v / 7225 / 85 = v / 614125 := by
    rw [Nat.div_div_eq_div_mul]
  have key : ((v / 52200625 % 85) * 85 + v / 614125 % 85) * 85 + v / 7225 % 85
      = v / 7225 := by
    omega
  have key2 : (((((v / 52200625 % 85) * 85 + v / 614125 % 85) * 85 + v / 7225 % 85) * 85 + 84)
      * 85 + 84) = v / 7225 * 7225 + 7224 := by
    rw [key]
    ring
  simp only [v4bytes, b85dval, List.take, List.cons.injEq, and_true]
  rw [key2]
  constructor
  · have hform : v / 7225 * 7225 + 7224
        = (65536 * b1 + (7224 - v % 7225)) + 16777216 * b0 := by
      omega
    rw [hform]
    exact extract_byte h0 (by omega) (by norm_num)
  · have hform : v / 7225 * 7225 + 7224
        = (7224 - v % 7225) + 65536 * (b1 + 256 * b0) := by
      omega
    rw [hform]
    exact extract_mid h1 (by omega) (by norm_num)

theorem b85_group3_arith {b0 b1 b2 : Nat} (h0 : b0 < 256) (h1 : b1 < 256) (h2 : b2 < 256) :
    (v4bytes (b85dval (b85val b0 b1 b2 0 / 52200625 % 85) (b85val b0 b1 b2 0 / 614125 % 85)
      (b85val b0 b1 b2 0 / 7225 % 85) (b85val b0 b1 b2 0 / 85 % 85) 84)).take 3
      = [b0, b1, b2] := by
  set v := b85val b0 b1 b2 0 with hv
  have hb : v = 16777216 * b0 + 65536 * b1 + 256 * b2 := by
    simp only [hv, b85val]
    ring
  have hq1 : v / 614125 / 85 = v / 52200625 := by
    rw [Nat.div_div_eq_div_mul]
  have hq2 : v / 7225 / 85 = v / 614125 := by
    rw [Nat.div_div_eq_div_mul]
  have hq3 : v / 85 / 85 = v / 7225 := by
    rw [Nat.div_div_eq_div_mul]
  have key : (((v / 52200625 % 85) * 85 + v / 614125 % 85) * 85 + v / 7225 % 85) * 85
      + v / 85 % 85 = v / 85 := by
    omega
  have key2 : ((((v / 52200625 % 85) * 85 + v / 614125 % 85) * 85 + v / 7225 % 85) * 85
      + v / 85 % 85) * 85 + 84 = v / 85 * 85 + 84 := by
    rw [key]
  simp only [v4bytes, b85dval, List.take, List.cons.injEq, and_true]
  rw [key2]
  refine ⟨?_, ?_, ?_⟩
  · have hform : v / 85 * 85 + 84
        = (65536 * b1 + 256 * b2 + (84 - v % 85)) + 16777216 * b0 := by
      omega
    rw [hform]
    exact extract_byte h0 (by omega) (by norm_num)
  · have hform : v / 85 * 85 + 84
        = (256 * b2 + (84 - v % 85)) + 65536 * (b1 + 256 * b0) := by
      omega
    rw [hform]
    exact extract_mid h1 (by omega) (by norm_num)
  · have hform : v / 85 * 85 + 84
        = (84 - v % 85) + 256 * (b2 + 256 * (b1 + 256 * b0)) := by
      omega
    rw [hform]
    exact extract_mid h2 (by omega) (by norm_num)

theorem b85decode_encode_bounded : ∀ (n : Nat) (l : List Nat), l.length ≤ n →
    (∀ b ∈ l, b < 256) → b85decode (b85encode l) = some l := by
  intro n
  induction n with
  | zero =>
    intro l hl _
    match l, hl with
    | [], _ => rfl
  | succ n ih =>
    intro l hl h
    match l with
    | [] => rfl
    | b0 :: b1 :: b2 :: b3 :: rest =>
      have h0 : b0 < 256 := h b0 (by simp)
      have h1 : b1 < 256 := h b1 (by simp)
      have h2 : b2 < 256 := h b2 (by simp)
      have h3 : b3 < 256 := h b3 (by simp)
      have hrest : ∀ b ∈ rest, b < 256 := fun b hb => h b (by simp [hb])
      have hlen : rest.length ≤ n := by
        simp only [List.length_cons] at hl
        omega
      have hih := ih rest hlen hrest
      have hvlt : b85val b0 b1 b2 b3 < 4437053125 := by
        simp only [b85val]
        omega
      rw [b85encode]
      simp only [b85digits, List.map_cons, List.map_nil, List.cons_append, List.nil_append]
      rw [b85decode]
      rw [b85decodeChar_encodeChar _ (Nat.mod_lt _ (by norm_num)),
        b85decodeChar_encodeChar _ (Nat.mod_lt _ (by norm_num)),
        b85decodeChar_encodeChar _ (Nat.mod_lt _ (by norm_num)),
        b85decodeChar_encodeChar _ (Nat.mod_lt _ (by norm_num)),
        b85decodeChar_encodeChar _ (Nat.mod_lt _ (by norm_num)), hih]
      simp [b85dval_digits hvlt, v4bytes_b85val h0 h1 h2 h3]
    | [b0] =>
      have h0 : b0 < 256 := h b0 (by simp)
      rw [b85encode]
      simp only [b85digits, List.map_cons, List.map_nil, List.take]
      rw [b85decode]
      rw [b85decodeChar_encodeChar _ (Nat.mod_lt _ (by norm_num)),
        b85decodeChar_encodeChar _ (Nat.mod_lt _ (by norm_num))]
      simp [b85_group1_arith h0]
    | [b0, b1] =>
      have h0 : b0 < 256 := h b0 (by simp)
      have h1 : b1 < 256 := h b1 (by simp)
      rw [b85encode]
      simp only [b85digits, List.map_cons, List.map_nil, List.take]
      rw [b85decode]
      rw [b85decodeChar_encodeChar _ (Nat.mod_lt _ (by norm_num)),
        b85decodeChar_encodeChar _ (Nat.mod_lt _ (by norm_num)),
        b85decodeChar_encodeChar _ (Nat.mod_lt _ (by norm_num))]
      simp [b85_group2_arith h0 h1]
    | [b0, b1, b2] =>
      have h0 : b0 < 256 := h b0 (by simp)
      have h1 : b1 < 256 := h b1 (by simp)
      have h2 : b2 < 256 := h b2 (by simp)
      rw [b85encode]
      simp only [b85digits, List.map_cons, List.map_nil, List.take]
      rw [b85decode]
      rw [b85decodeChar_encodeChar _ (Nat.mod_lt _ (by norm_num)),
        b85decodeChar_encodeChar _ (Nat.mod_lt _ (by norm_num)),
        b85decodeChar_encodeChar _ (Nat.mod_lt _ (by norm_num)),
        b85decodeChar_encodeChar _ (Nat.mod_lt _ (by norm_num))]
      simp [b85_group3_arith h0 h1 h2]

theorem b85decode_encode (l : List Nat) (h : ∀ b ∈ l, b < 256) :
    b85decode (b85encode l) = some l :=
  b85decode_encode_bounded l.length l le_rfl h


-- ----------------------------------------------------------------
-- Lemmas about src/message.rs
-- ----------------------------------------------------------------

theorem isPrefixOf_append_self : ∀ (l r : List Char), l.isPrefixOf (l ++ r) = true := by
  intro l r
  induction l with
  | nil => simp [List.isPrefixOf]
  | cons a as ih => simp [List.isPrefixOf, ih]

namespace message


theorem cb_not_prefixOf_sb (rest : List Char) :
    MessageDirection.CLIENTBOUND_HEADER.isPrefixOf
      (MessageDirection.SERVERBOUND_HEADER ++ rest) = false := rfl

theorem sb_not_prefixOf_cb (rest : List Char) :
    MessageDirection.SERVERBOUND_HEADER.isPrefixOf
      (MessageDirection.CLIENTBOUND_HEADER ++ rest) = false := rfl

theorem tryFrom_tag (d : MessageDirection) (rest : List Char) :
    MessageDirection.tryFrom (MessageDirection.encode_direction d ++ rest) = .ok d := by
  cases d
  · rw [show MessageDirection.encode_direction .Clientbound
      = MessageDirection.CLIENTBOUND_HEADER from rfl]
    rw [MessageDirection.tryFrom, if_pos (isPrefixOf_append_self _ _)]
  · rw [show MessageDirection.encode_direction .Serverbound
      = MessageDirection.SERVERBOUND_HEADER from rfl]
    rw [MessageDirection.tryFrom, cb_not_prefixOf_sb]
    rw [if_neg (by simp), if_pos (isPrefixOf_append_self _ _)]

theorem decode_partitioning_11 (rest : List Char) :
    part.Part.decode_partitioning (part.Part.encode_partitioning ⟨1, 1⟩ ++ rest)
      = .ok ⟨1, 1⟩ := by
  rw [show part.Part.encode_partitioning ⟨1, 1⟩ = ['0', '1', '/', '0', '1'] from rfl]
  rw [part.Part.decode_partitioning,
    if_neg (by
      simp only [List.length_append, List.length_cons, List.length_nil,
        part.Part.PARTITIONING_LENGTH]
      omega)]
  rfl

theorem drop5_pt11 (rest : List Char) :
    (part.Part.encode_partitioning ⟨1, 1⟩ ++ rest).drop part.Part.PARTITIONING_LENGTH
      = rest := rfl

theorem to_string_from_bytes (p : List Nat) (d : MessageDirection) :
    (Message.from_bytes p d).to_string
      = MessageDirection.encode_direction d
        ++ (part.Part.encode_partitioning ⟨1, 1⟩ ++ Text.encode_data p) := by
  simp [Message.from_bytes, Message.to_string, Text.new]

theorem message_roundtrip (p : List Nat) (d : MessageDirection) (h : ∀ b ∈ p, b < 256) :
    Message.from_string (Message.from_bytes p d).to_string = .ok (Message.from_bytes p d) := by
  rw [to_string_from_bytes, Message.from_string, tryFrom_tag d]
  dsimp only
  rw [List.drop_left, decode_partitioning_11]
  dsimp only
  rw [drop5_pt11]
  rw [show Text.decode_data (Text.encode_data p) = .ok p by
    rw [Text.decode_data, Text.encode_data, b85decode_encode p h]]
  rfl

end message

/-- C2: for every payload byte sequence and both directions, decoding the text
of the Frame encoded from `(p, d, part (1,1))` succeeds and yields a Message
with payload `p`, direction `d`, part `(1,1)`, and re-encoding reproduces the
identical text. -/
theorem C2_codec_roundtrip (p : List Nat) (d : message.MessageDirection)
    (h : ∀ b ∈ p, b < 256) :
    ∃ m : message.Message,
      message.Message.from_string (message.Message.from_bytes p d).to_string = .ok m
      ∧ m.data = p ∧ m.direction = d ∧ m.part = ⟨1, 1⟩
      ∧ m.to_string = (message.Message.from_bytes p d).to_string :=
  ⟨message.Message.from_bytes p d, message.message_roundtrip p d h, rfl, rfl, rfl, rfl⟩

/-- Witness for C2 at payload `[0, 1, 127, 255]`, direction Serverbound. -/
theorem C2_codec_roundtrip_witness :
    ∃ m : message.Message,
      message.Message.from_string
          (message.Message.from_bytes [0, 1, 127, 255] .Serverbound).to_string = .ok m
      ∧ m.data = [0, 1, 127, 255] ∧ m.direction = .Serverbound ∧ m.part = ⟨1, 1⟩
      ∧ m.to_string = (message.Message.from_bytes [0, 1, 127, 255] .Serverbound).to_string :=
  C2_codec_roundtrip [0, 1, 127, 255] .Serverbound (by decide)

/-- C5 fails on the code: the frame text built by `Text::new` (returned by
`Message::to_string`) carries no decimal length prefix and no delimiter; at
the concrete message `from_bytes([], Clientbound)` it differs from the
spec-claimed record shape, and its first character is `*` (the start of the
direction tag), not a decimal digit as the claimed `<decimal-length>` run
requires. -/
theorem C5_counterexample :
    (message.Message.from_bytes [] .Clientbound).to_string
        ≠ specLengthPrefixedText (message.Message.from_bytes [] .Clientbound)
      ∧ ((message.Message.from_bytes [] .Clientbound).to_string.head?.map Char.isDigit
        = some false) := by
  constructor
  · decide
  · decide

/-- C5 (amended): the text derived by `Text::new` and returned by
`Message::to_string` equals `<direction-tag><part-field><encoded-payload>`,
with no length prefix and no delimiter. -/
theorem C5_amended_text_shape :
    (∀ (d : message.MessageDirection) (pt : message.part.Part) (p : List Nat),
      (message.Text.new d pt p).all
        = message.MessageDirection.encode_direction d
          ++ message.part.Part.encode_partitioning pt ++ message.Text.encode_data p)
    ∧ (∀ (p : List Nat) (d : message.MessageDirection),
      (message.Message.from_bytes p d).to_string
        = message.MessageDirection.encode_direction d
          ++ message.part.Part.encode_partitioning ⟨1, 1⟩ ++ message.Text.encode_data p) := by
  constructor
  · intro d pt p
    simp [message.Text.new]
  · intro p d
    simp [message.Message.from_bytes, message.Message.to_string, message.Text.new]


-- ----------------------------------------------------------------
-- Lemmas about partitioning.Part
-- ----------------------------------------------------------------

theorem isWs_hexDigitChar : ∀ k, k < 16 → isWsChar (hexDigitChar k) = false := by
  decide

theorem hexDigitChar_ne_sep : ∀ k, k < 16 → hexDigitChar k ≠ '/' := by
  decide

namespace partitioning


theorem Part.toString_eq (p : Part) :
    Part.toString p = [hexDigitChar (p.current / 16), hexDigitChar (p.current % 16), '/',
      hexDigitChar (p.total / 16), hexDigitChar (p.total % 16), ' '] := rfl

theorem Part.gssl_eq : Part.get_standard_string_length = 6 := rfl

theorem rustTrim_part (a b c d : Nat) (ha : a < 16) (hb : b < 16) (hc : c < 16)
    (hd : d < 16) :
    rustTrim [hexDigitChar a, hexDigitChar b, '/', hexDigitChar c, hexDigitChar d, ' ']
      = [hexDigitChar a, hexDigitChar b, '/', hexDigitChar c, hexDigitChar d] := by
  simp [rustTrim, List.dropWhile_cons, isWs_hexDigitChar a ha, isWs_hexDigitChar b hb,
    isWs_hexDigitChar c hc, isWs_hexDigitChar d hd,
    (by decide : isWsChar '/' = false), (by decide : isWsChar ' ' = true)]

theorem splitChar_part (a b c d : Nat) (ha : a < 16) (hb : b < 16) (hc : c < 16)
    (hd : d < 16) :
    splitChar '/' [hexDigitChar a, hexDigitChar b, '/', hexDigitChar c, hexDigitChar d]
      = [[hexDigitChar a, hexDigitChar b], [hexDigitChar c, hexDigitChar d]] := by
  rw [show [hexDigitChar a, hexDigitChar b, '/', hexDigitChar c, hexDigitChar d]
    = [hexDigitChar a, hexDigitChar b] ++ '/' :: [hexDigitChar c, hexDigitChar d] from rfl]
  rw [splitChar_append_sep (by
    intro x hx
    simp at hx
    rcases hx with hx | hx <;> subst hx
    · exact hexDigitChar_ne_sep a ha
    · exact hexDigitChar_ne_sep b hb)]
  rw [splitChar_no_sep (by
    intro x hx
    simp at hx
    rcases hx with hx | hx <;> subst hx
    · exact hexDigitChar_ne_sep c hc
    · exact hexDigitChar_ne_sep d hd)]

theorem Part.from_string_toString (p : Part) (h1 : 1 ≤ p.current)
    (h2 : p.current ≤ p.total) (h3 : p.total ≤ 255) (rest : List Char) :
    Part.from_string (Part.toString p ++ rest) = .ok p := by
  have hc : p.current < 256 := by omega
  have ht : p.total < 256 := by omega
  rw [Part.from_string, if_neg (by
    rw [Part.toString_eq, Part.gssl_eq]
    simp only [List.length_append, List.length_cons, List.length_nil]
    omega)]
  rw [Part.gssl_eq, Part.toString_eq,
    @List.take_left' _ _ rest _ (by simp)]
  rw [rustTrim_part _ _ _ _ (by omega) (by omega) (by omega) (by omega)]
  rw [splitChar_part _ _ _ _ (by omega) (by omega) (by omega) (by omega)]
  rw [Part.from_string_tokens]
  rw [show [hexDigitChar (p.current / 16), hexDigitChar (p.current % 16)]
    = hex2 p.current from rfl]
  rw [show [hexDigitChar (p.total / 16), hexDigitChar (p.total % 16)]
    = hex2 p.total from rfl]
  rw [parseHex?_hex2 hc]
  dsimp only
  rw [parseHex?_hex2 ht]
  dsimp only
  rw [if_neg (by simp)]
  rw [Part.new, if_neg (by omega), if_neg (by
    simp only [Part.MAX_TOTAL]
    omega)]

end partitioning


set_option maxRecDepth 8000 in
theorem parseNat?_hex2_self : ∀ n, n < 256 → (parseNat? (hex2 n) = some n ↔ n < 10) := by
  decide

namespace message

theorem part_new_ok (cur tot : Nat) (q : part.Part)
    (h : part.Part.new cur tot = .ok q) : q = ⟨cur, tot⟩ := by
  rw [part.Part.new] at h
  by_cases hb1 : cur < 1
  · rw [if_pos hb1] at h
    cases h
  · rw [if_neg hb1] at h
    by_cases hb2 : cur > part.Part.UPPER_BOUND
    · rw [if_pos hb2] at h
      cases h
    · rw [if_neg hb2] at h
      by_cases hb3 : tot > part.Part.UPPER_BOUND
      · rw [if_pos hb3] at h
        cases h
      · rw [if_neg hb3] at h
        by_cases hb4 : cur > tot
        · rw [if_pos hb4] at h
          cases h
        · rw [if_neg hb4] at h
          cases h
          rfl

theorem decode_encode_partitioning_iff (c t : Nat) (h1 : 1 ≤ c) (h2 : c ≤ t)
    (h3 : t ≤ 255) :
    (part.Part.decode_partitioning (part.Part.encode_partitioning ⟨c, t⟩)
        = .ok ⟨c, t⟩) ↔ c ≤ 9 ∧ t ≤ 9 := by
  have hcsep : ∀ ch ∈ hex2 c, ch ≠ '/' := by
    intro ch hch
    simp only [hex2, List.mem_cons, List.not_mem_nil, or_false] at hch
    rcases hch with rfl | rfl
    · exact hexDigitChar_ne_sep _ (by omega)
    · exact hexDigitChar_ne_sep _ (by omega)
  have htsep : ∀ ch ∈ hex2 t, ch ≠ '/' := by
    intro ch hch
    simp only [hex2, List.mem_cons, List.not_mem_nil, or_false] at hch
    rcases hch with rfl | rfl
    · exact hexDigitChar_ne_sep _ (by omega)
    · exact hexDigitChar_ne_sep _ (by omega)
  rw [part.Part.encode_partitioning]
  dsimp only
  have hlen : (hex2 c ++ '/' :: hex2 t).length = 5 := by
    simp [hex2_length]
  rw [part.Part.decode_partitioning]
  rw [if_neg (by rw [hlen, part.Part.PARTITIONING_LENGTH]; omega)]
  rw [show (hex2 c ++ '/' :: hex2 t).take part.Part.PARTITIONING_LENGTH
      = hex2 c ++ '/' :: hex2 t by
    rw [part.Part.PARTITIONING_LENGTH, ← hlen, List.take_length]]
  rw [splitChar_append_sep hcsep, splitChar_no_sep htsep]
  rw [part.Part.decode_partitioning_tokens]
  constructor
  · intro h
    cases hc : parseNat? (hex2 c) with
    | none =>
      rw [hc] at h
      cases h
    | some v =>
      rw [hc] at h
      dsimp only at h
      cases ht : parseNat? (hex2 t) with
      | none =>
        rw [ht] at h
        cases h
      | some w =>
        rw [ht] at h
        dsimp only at h
        rw [if_neg (by simp)] at h
        have hinj := part_new_ok v w ⟨c, t⟩ h
        rw [part.Part.mk.injEq] at hinj
        obtain ⟨rfl, rfl⟩ := hinj
        exact ⟨by have := (parseNat?_hex2_self c (by omega)).mp hc; omega,
          by have := (parseNat?_hex2_self t (by omega)).mp ht; omega⟩
  · rintro ⟨hc9, ht9⟩
    rw [(parseNat?_hex2_self c (by omega)).mpr (by omega)]
    dsimp only
    rw [(parseNat?_hex2_self t (by omega)).mpr (by omega)]
    dsimp only
    rw [if_neg (by simp)]
    rw [part.Part.new, if_neg (by omega),
      if_neg (by rw [part.Part.UPPER_BOUND]; omega),
      if_neg (by rw [part.Part.UPPER_BOUND]; omega),
      if_neg (by omega)]

end message

/-- C8 fails as stated, for both cited codecs. `Part::to_string` of
src/partitioning.rs appends a trailing space (constant width 6, and a space
is not a hexadecimal character), so its encoding is not exactly two hex
digits, `/`, two hex digits. And the `part::Part::encode_partitioning` /
`decode_partitioning` pair of src/message.rs does not round-trip: the encoder
writes uppercase hexadecimal but the decoder parses decimal, so the valid
Part (16, 32) encodes to "10/20" and decodes to the different Part (10, 20),
while (1, 26) encodes to "01/1A", whose total fails to parse at all. -/
theorem C8_counterexample :
    (partitioning.Part.toString ⟨1, 5⟩ ≠ hex2 1 ++ '/' :: hex2 5
      ∧ partitioning.Part.toString ⟨1, 5⟩ = "01/05 ".toList)
    ∧ (message.part.Part.encode_partitioning ⟨16, 32⟩ = "10/20".toList
      ∧ message.part.Part.decode_partitioning
          (message.part.Part.encode_partitioning ⟨16, 32⟩)
        = .ok ⟨10, 20⟩
      ∧ (⟨10, 20⟩ : message.part.Part) ≠ ⟨16, 32⟩)
    ∧ message.part.Part.decode_partitioning
        (message.part.Part.encode_partitioning ⟨1, 26⟩)
      = .error (.Partitioning "failed to parse total into number") := by
  decide

/-- C8 (amended): for every valid Part (1 ≤ current ≤ total ≤ 255):
`Part::to_string` of src/partitioning.rs produces two uppercase hexadecimal
digits, `/`, two uppercase hexadecimal digits plus one trailing space
(constant width 6), and `Part::from_string` decodes that string back to the
original Part; `part::Part::encode_partitioning` of src/message.rs produces
the bare two-hex-digits/`/`/two-hex-digits form (constant width 5), but its
decimal-parsing `decode_partitioning` returns the original Part exactly when
both components are at most 9, where hexadecimal and decimal digits agree. -/
theorem C8_amended_part_roundtrip (p : partitioning.Part) (h1 : 1 ≤ p.current)
    (h2 : p.current ≤ p.total) (h3 : p.total ≤ 255) :
    partitioning.Part.toString p = hex2 p.current ++ '/' :: (hex2 p.total ++ [' '])
      ∧ (partitioning.Part.toString p).length = 6
      ∧ (∀ c ∈ hex2 p.current ++ hex2 p.total,
          (48 ≤ c.toNat ∧ c.toNat ≤ 57) ∨ (65 ≤ c.toNat ∧ c.toNat ≤ 70))
      ∧ partitioning.Part.from_string (partitioning.Part.toString p) = .ok p
      ∧ message.part.Part.encode_partitioning ⟨p.current, p.total⟩
          = hex2 p.current ++ '/' :: hex2 p.total
      ∧ (message.part.Part.encode_partitioning ⟨p.current, p.total⟩).length = 5
      ∧ (message.part.Part.decode_partitioning
            (message.part.Part.encode_partitioning ⟨p.current, p.total⟩)
          = .ok ⟨p.current, p.total⟩ ↔ p.current ≤ 9 ∧ p.total ≤ 9) := by
  refine ⟨rfl, rfl, ?_, ?_, rfl, rfl, ?_⟩
  · intro c hc
    rcases List.mem_append.mp hc with hc | hc
    · exact hex2_chars p.current (by omega) c hc
    · exact hex2_chars p.total (by omega) c hc
  · have h := partitioning.Part.from_string_toString p h1 h2 h3 []
    rwa [List.append_nil] at h
  · exact message.decode_encode_partitioning_iff p.current p.total h1 h2 h3

/-- Witness for C8 (amended) at Part (3, 16): the width-6 form with its
round trip, and the width-5 message.rs form whose decode round trip fails the
both-components-at-most-9 condition. -/
theorem C8_amended_part_roundtrip_witness :
    partitioning.Part.toString ⟨3, 16⟩ = hex2 3 ++ '/' :: (hex2 16 ++ [' '])
      ∧ (partitioning.Part.toString ⟨3, 16⟩).length = 6
      ∧ (∀ c ∈ hex2 3 ++ hex2 16,
          (48 ≤ c.toNat ∧ c.toNat ≤ 57) ∨ (65 ≤ c.toNat ∧ c.toNat ≤ 70))
      ∧ partitioning.Part.from_string (partitioning.Part.toString ⟨3, 16⟩) = .ok ⟨3, 16⟩
      ∧ message.part.Part.encode_partitioning ⟨3, 16⟩ = hex2 3 ++ '/' :: hex2 16
      ∧ (message.part.Part.encode_partitioning ⟨3, 16⟩).length = 5
      ∧ (message.part.Part.decode_partitioning
            (message.part.Part.encode_partitioning ⟨3, 16⟩)
          = .ok ⟨3, 16⟩ ↔ (3 : Nat) ≤ 9 ∧ (16 : Nat) ≤ 9) :=
  C8_amended_part_roundtrip ⟨3, 16⟩ (by decide) (by decide) (by decide)


-- ----------------------------------------------------------------
-- Lemmas about the wire payload codec
-- ----------------------------------------------------------------

theorem hexVal?_hexDigitChar : ∀ k, k < 16 → hexVal? (hexDigitChar k) = some k := by
  decide

namespace wire


theorem pbts_nil : payload_bytes_to_string [] = [] := rfl

theorem pbts_cons (b : Nat) (l : List Nat) :
    payload_bytes_to_string (b :: l)
      = hexDigitChar (b / 16) :: hexDigitChar (b % 16) :: payload_bytes_to_string l := rfl

theorem pbts_length (l : List Nat) : (payload_bytes_to_string l).length = 2 * l.length := by
  induction l with
  | nil => rfl
  | cons b bs ih => simp [pbts_cons, ih]; omega

theorem pbts_append (l1 l2 : List Nat) :
    payload_bytes_to_string (l1 ++ l2)
      = payload_bytes_to_string l1 ++ payload_bytes_to_string l2 := by
  induction l1 with
  | nil => rfl
  | cons b bs ih => simp [pbts_cons, ih]

theorem pbts_take (l : List Nat) : ∀ k,
    (payload_bytes_to_string l).take (2 * k) = payload_bytes_to_string (l.take k) := by
  induction l with
  | nil => intro k; simp [pbts_nil]
  | cons b bs ih =>
    intro k
    match k with
    | 0 => rfl
    | k + 1 =>
      rw [show 2 * (k + 1) = (2 * k) + 1 + 1 by omega]
      simp only [pbts_cons, List.take_succ_cons]
      rw [ih k]

theorem pbts_drop (l : List Nat) : ∀ k,
    (payload_bytes_to_string l).drop (2 * k) = payload_bytes_to_string (l.drop k) := by
  induction l with
  | nil => intro k; simp [pbts_nil]
  | cons b bs ih =>
    intro k
    match k with
    | 0 => rfl
    | k + 1 =>
      rw [show 2 * (k + 1) = (2 * k) + 1 + 1 by omega]
      simp only [pbts_cons, List.drop_succ_cons]
      exact ih k

theorem pstb_pbts (l : List Nat) (h : ∀ b ∈ l, b < 256) :
    payload_string_to_bytes (payload_bytes_to_string l) = .ok l := by
  induction l with
  | nil => rfl
  | cons b bs ih =>
    have hb : b < 256 := h b (by simp)
    have hbs : ∀ x ∈ bs, x < 256 := fun x hx => h x (by simp [hx])
    rw [pbts_cons, payload_string_to_bytes]
    rw [hexVal?_hexDigitChar _ (by omega), hexVal?_hexDigitChar _ (by omega), ih hbs]
    have : b / 16 * 16 + b % 16 = b := by omega
    simp [this]

end wire


-- ----------------------------------------------------------------
-- Parsing a well-formed record
-- ----------------------------------------------------------------

theorem char_ne_of_toNat {c d : Char} (h : c.toNat ≠ d.toNat) : c ≠ d :=
  fun he => h (by rw [he])

namespace partitioning


theorem Part.toString_length (p : Part) : (Part.toString p).length = 6 := rfl

end partitioning

namespace wire


theorem natToString_ne_delim (n : Nat) :
    ∀ c ∈ natToString n, (c != LENGTH_DELIMITER) = true := by
  intro c hc
  have h := natToString_mem n c hc
  have h42 : LENGTH_DELIMITER.toNat = 42 := rfl
  simp only [bne_iff_ne, ne_eq]
  intro he
  rw [he, h42] at h
  omega

theorem delim_not_ne : ((LENGTH_DELIMITER != LENGTH_DELIMITER) : Bool) = false := by
  simp

theorem drop_after_delim (l : List Char) (c : Char) (x : List Char) :
    (l ++ c :: x).drop (l.length + 1) = x := by
  rw [show l ++ c :: x = (l ++ [c]) ++ x by simp]
  exact List.drop_left' (by simp)

theorem recordText_length (d : message.MessageDirection) (pt : partitioning.Part)
    (ptext : List Char) :
    (recordText d pt ptext).length
      = (natToString (direction_to_string d ++ partitioning.Part.toString pt
          ++ ptext).length).length
        + 1 + (direction_to_string d ++ partitioning.Part.toString pt ++ ptext).length := by
  simp [recordText]
  omega

theorem parse_record_record (d : message.MessageDirection) (pt : partitioning.Part)
    (h1 : 1 ≤ pt.current) (h2 : pt.current ≤ pt.total) (h3 : pt.total ≤ 255)
    (ptext rest : List Char) :
    parse_record (recordText d pt ptext ++ rest)
      = .ok (d, pt, ptext, (recordText d pt ptext).length,
          (recordText d pt ptext).length) := by
  have hsplit : recordText d pt ptext ++ rest
      = natToString (direction_to_string d ++ partitioning.Part.toString pt ++ ptext).length
        ++ LENGTH_DELIMITER
        :: ((direction_to_string d ++ partitioning.Part.toString pt ++ ptext) ++ rest) := by
    simp [recordText]
  rw [hsplit]
  simp only [parse_record]
  rw [takeWhile_append_stop
    (natToString_ne_delim
      (direction_to_string d ++ partitioning.Part.toString pt ++ ptext).length)
    _ delim_not_ne]
  have hlt : (natToString (direction_to_string d ++ partitioning.Part.toString pt
      ++ ptext).length).length
      < (natToString (direction_to_string d ++ partitioning.Part.toString pt ++ ptext).length
        ++ LENGTH_DELIMITER
        :: ((direction_to_string d ++ partitioning.Part.toString pt ++ ptext) ++ rest)).length := by
    simp
  rw [if_neg (by
    intro hcon
    exact natToString_ne_nil _ hcon.2)]
  rw [rustTrim_digits _ (natToString_mem _), parseNat?_natToString]
  rw [if_pos hlt, drop_after_delim]
  simp only [direction_to_string, List.append_assoc]
  rw [show direction_from_string
      (message.MessageDirection.encode_direction d
        ++ (partitioning.Part.toString pt ++ (ptext ++ rest)))
    = .ok d from message.tryFrom_tag d _]
  dsimp only
  rw [List.drop_left]
  rw [partitioning.Part.from_string_toString pt h1 h2 h3]
  dsimp only
  rw [List.drop_left]
  have hpl : (message.MessageDirection.encode_direction d
        ++ (partitioning.Part.toString pt ++ ptext)).length
      - ((message.MessageDirection.encode_direction d).length
        + (partitioning.Part.toString pt).length) = ptext.length := by
    simp
    omega
  rw [hpl, if_pos (by simp), List.take_left]
  simp only [Except.ok.injEq, Prod.mk.injEq, true_and]
  have hassoc : message.MessageDirection.encode_direction d
      ++ partitioning.Part.toString pt ++ ptext
      = message.MessageDirection.encode_direction d
        ++ (partitioning.Part.toString pt ++ ptext) := List.append_assoc _ _ _
  constructor
  · rw [recordText_length]
    simp only [direction_to_string, hassoc]
    simp [partitioning.Part.toString_length]
    try omega
  · rw [recordText_length]
    simp only [direction_to_string, hassoc]

theorem recordText_length_pos (d : message.MessageDirection) (pt : partitioning.Part)
    (ptext : List Char) : 1 ≤ (recordText d pt ptext).length := by
  rw [recordText_length]
  omega

theorem parseLoop_concat
    (build : message.MessageDirection → partitioning.Part → List Char
      → Except MessageError Message) :
    ∀ (items : List ((message.MessageDirection × partitioning.Part × List Char) × Message))
      (s : List Char) (fuel : Nat),
    s = recordsText (items.map Prod.fst) →
    (∀ x ∈ items, 1 ≤ x.1.2.1.current ∧ x.1.2.1.current ≤ x.1.2.1.total
      ∧ x.1.2.1.total ≤ 255) →
    (∀ x ∈ items, build x.1.1 x.1.2.1 x.1.2.2 = .ok x.2) →
    s.length < fuel →
    parseLoop build fuel s.length s = .ok (items.map Prod.snd) := by
  intro items
  induction items with
  | nil =>
    intro s fuel hs _ _ hf
    subst hs
    match fuel, hf with
    | fuel + 1, _ =>
      rw [show recordsText ([].map Prod.fst) = [] from rfl]
      simp [parseLoop]
  | cons x xs ih =>
    intro s fuel hs hval hbuild hf
    have hrt : s = recordText x.1.1 x.1.2.1 x.1.2.2 ++ recordsText (xs.map Prod.fst) := by
      rw [hs]
      simp [recordsText]
    subst hrt
    have hvx := hval x (by simp)
    have hpos := recordText_length_pos x.1.1 x.1.2.1 x.1.2.2
    match fuel, hf with
    | fuel + 1, hf =>
      rw [parseLoop, if_neg (by
        intro h0
        simp only [List.length_append] at h0
        omega)]
      rw [parse_record_record x.1.1 x.1.2.1 hvx.1 hvx.2.1 hvx.2.2 x.1.2.2 _]
      dsimp only
      rw [hbuild x (by simp)]
      dsimp only
      rw [List.drop_left]
      have harith : (recordText x.1.1 x.1.2.1 x.1.2.2
            ++ recordsText (xs.map Prod.fst)).length
          - (recordText x.1.1 x.1.2.1 x.1.2.2).length
          = (recordsText (xs.map Prod.fst)).length := by
        simp
      rw [harith]
      rw [ih (recordsText (xs.map Prod.fst)) fuel rfl
        (fun y hy => hval y (by simp [hy]))
        (fun y hy => hbuild y (by simp [hy]))
        (by
          simp only [List.length_append] at hf
          omega)]
      rfl


theorem toString_eq_recordText (m : Message) :
    Message.toString m = recordText m.direction m.part (payload_bytes_to_string m.data) := rfl

theorem from_string_build_pbts (d : message.MessageDirection) (pt : partitioning.Part)
    (bytes : List Nat) (hb : ∀ b ∈ bytes, b < 256) :
    Message.from_string_build d pt (payload_bytes_to_string bytes) = .ok ⟨bytes, d, pt⟩ := by
  rw [Message.from_string_build, pstb_pbts bytes hb]

theorem from_string_single_record (d : message.MessageDirection) (pt : partitioning.Part)
    (h1 : 1 ≤ pt.current) (h2 : pt.current ≤ pt.total) (h3 : pt.total ≤ 255)
    (bytes : List Nat) (hb : ∀ b ∈ bytes, b < 256) :
    Message.from_string (recordText d pt (payload_bytes_to_string bytes))
      = .ok [⟨bytes, d, pt⟩] := by
  rw [Message.from_string]
  exact parseLoop_concat Message.from_string_build
    [((d, pt, payload_bytes_to_string bytes), ⟨bytes, d, pt⟩)]
    (recordText d pt (payload_bytes_to_string bytes))
    ((recordText d pt (payload_bytes_to_string bytes)).length + 1)
    (by simp [recordsText])
    (by
      intro x hx
      rw [List.mem_singleton] at hx
      subst hx
      exact ⟨h1, h2, h3⟩)
    (by
      intro x hx
      rw [List.mem_singleton] at hx
      subst hx
      exact from_string_build_pbts d pt bytes hb)
    (Nat.lt_succ_self _)

end wire

namespace partitioning


theorem disaggregate_build_pbts (d : message.MessageDirection) (pt : partitioning.Part)
    (bytes : List Nat) (hb : ∀ b ∈ bytes, b < 256) :
    Aggregator.disaggregate_build d pt (wire.payload_bytes_to_string bytes)
      = .ok (wire.Message.from_bytes bytes d) := by
  rw [Aggregator.disaggregate_build, wire.pstb_pbts bytes hb]

theorem disaggregate_records (msgs : List wire.Message)
    (hval : ∀ m ∈ msgs, 1 ≤ m.part.current ∧ m.part.current ≤ m.part.total
      ∧ m.part.total ≤ 255)
    (hb : ∀ m ∈ msgs, ∀ b ∈ m.data, b < 256) :
    Aggregator.disaggregate ((msgs.map wire.Message.toString).flatten)
      = .ok (msgs.map (fun m => wire.Message.from_bytes m.data m.direction)) := by
  rw [Aggregator.disaggregate]
  have hmap : (msgs.map (fun m : wire.Message =>
        ((m.direction, m.part, wire.payload_bytes_to_string m.data),
          wire.Message.from_bytes m.data m.direction))).map Prod.snd
      = msgs.map (fun m => wire.Message.from_bytes m.data m.direction) := by
    rw [List.map_map]
    rfl
  have hs : (msgs.map wire.Message.toString).flatten
      = wire.recordsText ((msgs.map (fun m : wire.Message =>
          ((m.direction, m.part, wire.payload_bytes_to_string m.data),
            wire.Message.from_bytes m.data m.direction))).map Prod.fst) := by
    rw [wire.recordsText, List.map_map, List.map_map]
    rfl
  rw [← hmap]
  exact wire.parseLoop_concat Aggregator.disaggregate_build _ _ _
    hs
    (by
      intro x hx
      rw [List.mem_map] at hx
      obtain ⟨m, hm, hxm⟩ := hx
      subst hxm
      exact hval m hm)
    (by
      intro x hx
      rw [List.mem_map] at hx
      obtain ⟨m, hm, hxm⟩ := hx
      subst hxm
      exact disaggregate_build_pbts m.direction m.part m.data (hb m hm))
    (Nat.lt_succ_self _)

end partitioning


theorem parseLoop_disagg_parts : ∀ (fuel cr : Nat) (s : List Char) (msgs : List wire.Message),
    wire.parseLoop partitioning.Aggregator.disaggregate_build fuel cr s = .ok msgs →
    ∀ m ∈ msgs, m.part = ⟨1, 1⟩ := by
  intro fuel
  induction fuel with
  | zero =>
    intro cr s msgs h m hm
    rw [wire.parseLoop] at h
    injection h with h
    subst h
    simp at hm
  | succ fuel ih =>
    intro cr s msgs h m hm
    rw [wire.parseLoop] at h
    by_cases hcr : cr = 0
    · rw [if_pos hcr] at h
      injection h with h
      subst h
      simp at hm
    · rw [if_neg hcr] at h
      match hp : wire.parse_record s with
      | .error e =>
        rw [hp] at h
        simp at h
      | .ok (d, pt, ptext, od, cd) =>
        rw [hp] at h
        dsimp only at h
        match hb : partitioning.Aggregator.disaggregate_build d pt ptext with
        | .error e =>
          rw [hb] at h
          simp at h
        | .ok msg =>
          rw [hb] at h
          dsimp only at h
          match hrec : wire.parseLoop partitioning.Aggregator.disaggregate_build fuel
              (cr - cd) (s.drop od) with
          | .error e =>
            rw [hrec] at h
            simp at h
          | .ok rest =>
            rw [hrec] at h
            injection h with h
            subst h
            rcases List.mem_cons.mp hm with hm | hm
            · subst hm
              rw [partitioning.Aggregator.disaggregate_build] at hb
              match hbs : wire.payload_string_to_bytes ptext with
              | .ok bs =>
                rw [hbs] at hb
                injection hb with hb
                subst hb
                rfl
              | .error e =>
                rw [hbs] at hb
                simp at hb
            · exact ih _ _ _ hrec m hm

theorem Part_new_ok_iff (c t : Nat) :
    (∃ p, partitioning.Part.new c t = .ok p) ↔ (1 ≤ c ∧ c ≤ t ∧ t ≤ 255) := by
  constructor
  · rintro ⟨p, hp⟩
    rw [partitioning.Part.new] at hp
    by_cases h1 : c = 0 ∨ c > t
    · rw [if_pos h1] at hp
      exact absurd hp (by simp)
    · rw [if_neg h1] at hp
      by_cases h2 : t > partitioning.Part.MAX_TOTAL
      · rw [if_pos h2] at hp
        exact absurd hp (by simp)
      · rw [partitioning.Part.MAX_TOTAL] at h2
        omega
  · intro h
    refine ⟨⟨c, t⟩, ?_⟩
    rw [partitioning.Part.new, if_neg (by omega),
      if_neg (by rw [partitioning.Part.MAX_TOTAL]; omega)]

theorem partition_error_kind (m : wire.Message) (limit : Nat)
    (h : limit = 0 ∨ limit ≤ m.get_header_size) :
    errKind? (partitioning.Partitioner.partition m limit) = some .Partitioning := by
  rw [partitioning.Partitioner.partition, partitioning.Partitioner.check_is_partitionable]
  by_cases h0 : limit = 0
  · rw [if_pos h0]
    rfl
  · rw [if_neg h0, if_pos (by
      rcases h with h | h
      · exact absurd h h0
      · exact h)]
    rfl

/-- C7: `Part::new(0,5)`, `Part::new(6,5)` and `Part::new(1,256)` each fail
with a Partitioning error; `Part::new(current, total)` succeeds exactly when
1 ≤ current ≤ total ≤ 255; and `Partitioner::partition` fails with a
Partitioning error whenever the limit is zero or does not exceed the frame's
header overhead. -/
theorem C7_bounds :
    errKind? (partitioning.Part.new 0 5) = some .Partitioning
    ∧ errKind? (partitioning.Part.new 6 5) = some .Partitioning
    ∧ errKind? (partitioning.Part.new 1 256) = some .Partitioning
    ∧ (∀ c t, (∃ p, partitioning.Part.new c t = .ok p) ↔ (1 ≤ c ∧ c ≤ t ∧ t ≤ 255))
    ∧ (∀ (m : wire.Message) (limit : Nat), limit = 0 ∨ limit ≤ m.get_header_size →
        errKind? (partitioning.Partitioner.partition m limit) = some .Partitioning) :=
  ⟨rfl, rfl, rfl, Part_new_ok_iff, partition_error_kind⟩

/-- Witness for C7 at `partition(from_bytes([1], Clientbound), 0)`. -/
theorem C7_bounds_witness :
    errKind? (partitioning.Partitioner.partition
      (wire.Message.from_bytes [1] .Clientbound) 0) = some .Partitioning :=
  C7_bounds.2.2.2.2 (wire.Message.from_bytes [1] .Clientbound) 0 (Or.inl rfl)

/-- C9 fails as stated: merging an empty list does fail in both merge
operations, but `Partitioner::merge` reports a `Partitioning`-kind error
("No parts to merge"), not a `Merging`-kind one. -/
theorem C9_counterexample :
    errKind? (partitioning.Partitioner.merge ([] : List wire.Message))
        = some .Partitioning
    ∧ (some ErrorKind.Partitioning ≠ some ErrorKind.Merging) := by
  constructor
  · rfl
  · decide

/-- C9 (amended): merging an empty list fails in both merge operations;
`Message::merge_partitions` reports a Merging error, while
`Partitioner::merge` reports a Partitioning error. -/
theorem C9_amended_empty_merge :
    partitioning.Partitioner.merge ([] : List wire.Message)
        = .error (.Partitioning "No parts to merge")
    ∧ message.Message.merge_partitions []
        = .error (.Merging "there must be at least one element") :=
  ⟨rfl, rfl⟩

/-- C10: every Message built by `Message::from_bytes` carries part (1,1)
(both for the message.rs iteration in src/ and for the spec-modelled current
iteration), and consequently every Message returned by
`Aggregator::disaggregate` — which rebuilds its results through
`from_bytes` — carries part (1,1) regardless of the part field parsed from
the wire record. -/
theorem C10_parts_one :
    (∀ (p : List Nat) (d : message.MessageDirection),
      (message.Message.from_bytes p d).part = ⟨1, 1⟩)
    ∧ (∀ (p : List Nat) (d : message.MessageDirection),
      (wire.Message.from_bytes p d).part = ⟨1, 1⟩)
    ∧ (∀ (s : List Char) (msgs : List wire.Message),
        partitioning.Aggregator.disaggregate s = .ok msgs →
        ∀ m ∈ msgs, m.part = ⟨1, 1⟩) := by
  refine ⟨fun p d => rfl, fun p d => rfl, ?_⟩
  intro s msgs h
  rw [partitioning.Aggregator.disaggregate] at h
  exact parseLoop_disagg_parts _ _ _ _ h

/-- Witness for C10: disaggregating the record of a one-byte frame yields a
message whose part is (1,1). -/
theorem C10_parts_one_witness :
    (wire.Message.from_bytes [65] .Serverbound).part = (⟨1, 1⟩ : partitioning.Part) :=
  C10_parts_one.2.2 (wire.Message.toString (wire.Message.from_bytes [65] .Serverbound))
    [wire.Message.from_bytes [65] .Serverbound] (by decide)
    (wire.Message.from_bytes [65] .Serverbound) (by simp)

namespace partitioning


theorem pbts_chunk (data : List Nat) (k a : Nat) :
    ((wire.payload_bytes_to_string data).drop (2 * k)).take (2 * a)
      = wire.payload_bytes_to_string ((data.drop k).take a) := by
  rw [wire.pbts_drop, wire.pbts_take]

theorem Partitioner.partitionGo_even (data : List Nat) (d : message.MessageDirection)
    (total a : Nat)
    (hdata : ∀ b ∈ data, b < 256)
    (ha : 0 < a) (htot : total ≤ 255)
    (hlow : (total - 1) * a < data.length) (hhigh : data.length ≤ total * a) :
    ∀ cnt i0 offset, 1 ≤ i0 → i0 + cnt = total + 1 →
    Partitioner.partitionGo (wire.payload_bytes_to_string data) d total (2 * a)
        (List.range' i0 cnt) offset 0
      = .ok ((List.range' i0 cnt).map (fun i =>
          (⟨if i = total then data.drop ((i - 1) * a)
              else (data.drop ((i - 1) * a)).take a, d, ⟨i, total⟩⟩ : wire.Message))) := by
  intro cnt
  induction cnt with
  | zero =>
    intro i0 offset h1 h2
    rw [show List.range' i0 0 = [] from rfl]
    rfl
  | succ cnt ih =>
    intro i0 offset h1 h2
    obtain ⟨x, hx⟩ : ∃ x, i0 = x + 1 := ⟨i0 - 1, by omega⟩
    subst hx
    rw [show List.range' (x + 1) (cnt + 1) = (x + 1) :: List.range' (x + 2) cnt from rfl]
    rw [Partitioner.partitionGo]
    rw [show Part.new (x + 1) total = .ok ⟨x + 1, total⟩ by
      rw [Part.new, if_neg (by omega), if_neg (by rw [Part.MAX_TOTAL]; omega)]]
    dsimp only
    rw [List.map_cons]
    by_cases hlast : x + 1 = total
    · -- final part: cnt must be zero
      have hc : cnt = 0 := by omega
      subst hc
      subst hlast
      simp only [ne_eq, eq_self_iff_true, not_true_eq_false, and_false, false_and, if_false,
        if_true, Nat.add_sub_cancel]
      have hslice : ((wire.payload_bytes_to_string data).drop (x * (2 * a))).take
            ((wire.payload_bytes_to_string data).length - x * (2 * a))
          = wire.payload_bytes_to_string (data.drop (x * a)) := by
        rw [show x * (2 * a) = 2 * (x * a) by ring, ← wire.pbts_drop]
        rw [show (wire.payload_bytes_to_string data).length - 2 * (x * a)
          = ((wire.payload_bytes_to_string data).drop (2 * (x * a))).length by
            rw [List.length_drop]]
        exact List.take_length _
      rw [hslice]
      rw [if_neg (by
        rw [wire.pbts_length]
        omega)]
      rw [show wire.direction_to_string d ++ Part.toString ⟨x + 1, x + 1⟩
          ++ wire.payload_bytes_to_string (data.drop (x * a))
        = wire.direction_to_string d ++ (Part.toString ⟨x + 1, x + 1⟩
          ++ wire.payload_bytes_to_string (data.drop (x * a))) from List.append_assoc _ _ _]
      rw [show natToString (wire.direction_to_string d ++ (Part.toString ⟨x + 1, x + 1⟩
            ++ wire.payload_bytes_to_string (data.drop (x * a)))).length
          ++ wire.LENGTH_DELIMITER :: (wire.direction_to_string d
            ++ (Part.toString ⟨x + 1, x + 1⟩
            ++ wire.payload_bytes_to_string (data.drop (x * a))))
        = wire.recordText d ⟨x + 1, x + 1⟩
            (wire.payload_bytes_to_string (data.drop (x * a))) by
          rw [wire.recordText]
          simp]
      rw [wire.from_string_single_record d ⟨x + 1, x + 1⟩ (by dsimp only; omega)
        (by dsimp only; omega) (by dsimp only; omega)
        (data.drop (x * a)) (fun b hb => hdata b (List.drop_subset _ _ hb))]
      dsimp only
      rw [show List.range' (x + 2) 0 = [] from rfl]
      simp [Partitioner.partitionGo]
    · -- not the final part
      simp only [ne_eq, Nat.add_sub_cancel]
      rw [if_pos hlast]
      have he : (x + 1) * (2 * a) = x * (2 * a) + 2 * a := by ring
      rw [show (x + 1) * (2 * a) - 0 - x * (2 * a) = 2 * a by rw [he]; omega]
      rw [show x * (2 * a) = 2 * (x * a) by ring]
      rw [pbts_chunk]
      have hpar : ¬(¬((wire.payload_bytes_to_string ((data.drop (x * a)).take a)).length % 2
          = 0) ∧ ¬(x + 1 = total)) := by
        rw [wire.pbts_length]
        intro hcon
        exact hcon.1 (by omega)
      simp only [if_neg hpar]
      rw [if_neg (fun hcon => hlast hcon.2)]
      rw [show wire.direction_to_string d ++ Part.toString ⟨x + 1, total⟩
          ++ wire.payload_bytes_to_string ((data.drop (x * a)).take a)
        = wire.direction_to_string d ++ (Part.toString ⟨x + 1, total⟩
          ++ wire.payload_bytes_to_string ((data.drop (x * a)).take a)) from
          List.append_assoc _ _ _]
      rw [show natToString (wire.direction_to_string d ++ (Part.toString ⟨x + 1, total⟩
            ++ wire.payload_bytes_to_string ((data.drop (x * a)).take a))).length
          ++ wire.LENGTH_DELIMITER :: (wire.direction_to_string d
            ++ (Part.toString ⟨x + 1, total⟩
            ++ wire.payload_bytes_to_string ((data.drop (x * a)).take a)))
        = wire.recordText d ⟨x + 1, total⟩
            (wire.payload_bytes_to_string ((data.drop (x * a)).take a)) by
          rw [wire.recordText]
          simp]
      rw [wire.from_string_single_record d ⟨x + 1, total⟩ (by dsimp only; omega)
        (by dsimp only; omega) (by dsimp only; omega)
        ((data.drop (x * a)).take a)
        (fun b hb => hdata b (List.drop_subset _ _ (List.take_subset _ _ hb)))]
      dsimp only
      rw [ih (x + 2) _ (by omega) (by omega)]
      dsimp only
      rw [if_neg hlast]
      rfl

theorem chunks_flatten_go (data : List Nat) (total a : Nat)
    (hhigh : data.length ≤ total * a) :
    ∀ cnt i0, 1 ≤ i0 → i0 + cnt = total + 1 →
    ((List.range' i0 cnt).map (fun i => if i = total then data.drop ((i - 1) * a)
        else (data.drop ((i - 1) * a)).take a)).flatten = data.drop ((i0 - 1) * a) := by
  intro cnt
  induction cnt with
  | zero =>
    intro i0 h1 h2
    rw [show List.range' i0 0 = [] from rfl]
    have hi : i0 = total + 1 := by omega
    subst hi
    rw [show total + 1 - 1 = total from rfl]
    rw [List.map_nil, List.flatten_nil, Eq.comm]
    exact List.drop_eq_nil_of_le hhigh
  | succ cnt ih =>
    intro i0 h1 h2
    rw [show List.range' i0 (cnt + 1) = i0 :: List.range' (i0 + 1) cnt from rfl]
    rw [List.map_cons, List.flatten_cons]
    rw [ih (i0 + 1) (by omega) (by omega)]
    rw [show i0 + 1 - 1 = i0 from rfl]
    by_cases hlast : i0 = total
    · subst hlast
      rw [if_pos rfl]
      rw [show List.drop (i0 * a) data = [] from List.drop_eq_nil_of_le hhigh]
      exact List.append_nil _
    · rw [if_neg hlast]
      rw [show List.drop (i0 * a) data = List.drop a (List.drop ((i0 - 1) * a) data) by
        rw [List.drop_drop]
        congr 1
        have he : i0 - 1 + 1 = i0 := by omega
        calc i0 * a = (i0 - 1 + 1) * a := by rw [he]
          _ = (i0 - 1) * a + a := by ring]
      exact List.take_append_drop _ _

theorem chunks_flatten (data : List Nat) (total a : Nat)
    (h1 : 1 ≤ total) (hhigh : data.length ≤ total * a) :
    ((List.range' 1 total).map (fun i => if i = total then data.drop ((i - 1) * a)
        else (data.drop ((i - 1) * a)).take a)).flatten = data := by
  rw [chunks_flatten_go data total a hhigh total 1 (by omega) (by omega)]
  simp


theorem ceil_bounds_core (L a q r T : Nat) (ha : 0 < a) (hL : 1 ≤ L)
    (hdm : 2 * a * q + r = 2 * L) (hrlt : r < 2 * a)
    (hT : (if r > 0 then q + 1 else q) = T) :
    (T - 1) * a < L ∧ L ≤ T * a ∧ 1 ≤ T ∧ (2 * L + 2 * a - 1) / (2 * a) = T := by
  have e1 : 2 * a * q = 2 * (a * q) := by ring
  by_cases h0 : r > 0
  · rw [if_pos h0] at hT
    subst hT
    have e4 : (q + 1) * a = a * q + a := by ring
    have e5 : (q + 1 - 1) * a = a * q := by simp [Nat.mul_comm]
    have e6 : (q + 1) * (2 * a) = 2 * (a * q) + 2 * a := by ring
    have e7 : (q + 1 + 1) * (2 * a) = 2 * (a * q) + 4 * a := by ring
    refine ⟨by omega, by omega, by omega, ?_⟩
    exact Nat.div_eq_of_lt_le (by omega) (by omega)
  · rw [if_neg h0] at hT
    subst hT
    have haq : a * q = L := by omega
    have hq1 : 1 ≤ q := by
      rcases Nat.eq_zero_or_pos q with h | h
      · rw [h, Nat.mul_zero] at haq
        omega
      · exact h
    have e5 : (q - 1) * a + a = a * q := by
      obtain ⟨u, rfl⟩ : ∃ u, q = u + 1 := ⟨q - 1, by omega⟩
      simp [Nat.add_mul, Nat.mul_add, Nat.mul_comm]
    have e4 : q * a = a * q := by ring
    have e9 : q * (2 * a) = 2 * (a * q) := by ring
    have e10 : (q + 1) * (2 * a) = 2 * (a * q) + 2 * a := by ring
    refine ⟨by omega, by omega, by omega, ?_⟩
    exact Nat.div_eq_of_lt_le (by omega) (by omega)

theorem ceil_bounds (L a T : Nat) (ha : 0 < a) (hL : 1 ≤ L)
    (hT : (if 2 * L % (2 * a) > 0 then 2 * L / (2 * a) + 1 else 2 * L / (2 * a)) = T) :
    (T - 1) * a < L ∧ L ≤ T * a ∧ 1 ≤ T ∧ (2 * L + 2 * a - 1) / (2 * a) = T :=
  ceil_bounds_core L a (2 * L / (2 * a)) (2 * L % (2 * a)) T ha hL
    (Nat.div_add_mod (2 * L) (2 * a)) (Nat.mod_lt _ (by omega)) hT

end partitioning


/-- C1, counterexample. The claim promises that whenever the encoded payload
text is longer than a limit that exceeds the header overhead, the parts
returned by `Partitioner::partition` concatenate back to the original payload
bytes. For a 16-byte frame and limit 29 (header overhead 26, so slice size 3,
an odd number) both premises hold, yet the concatenated payload bytes of the
returned parts differ from the original: the loop of partition drops one
character of the encoded text per patched slice. -/
theorem C1_counterexample :
    29 < (wire.payload_bytes_to_string (wire.Message.from_bytes
        [1, 2, 3, 4, 5, 6, 7, 8, 9, 10, 11, 12, 13, 14, 15, 16]
        .Serverbound).data).length ∧
    (wire.Message.from_bytes [1, 2, 3, 4, 5, 6, 7, 8, 9, 10, 11, 12, 13, 14, 15, 16]
        .Serverbound).get_header_size < 29 ∧
    (match partitioning.Partitioner.partition (wire.Message.from_bytes
        [1, 2, 3, 4, 5, 6, 7, 8, 9, 10, 11, 12, 13, 14, 15, 16] .Serverbound) 29 with
     | .ok parts => (parts.map wire.Message.payload).flatten
     | .error _ => []) ≠ [1, 2, 3, 4, 5, 6, 7, 8, 9, 10, 11, 12, 13, 14, 15, 16] := by
  decide

/-- C1, amended: when additionally the slice size `limit - header_overhead` is
even (so that it cuts the two-hex-characters-per-byte encoding on byte
boundaries) and the computed number of parts stays within 255,
`Partitioner::partition` returns parts whose count is
`ceil(encoded_len / slice_size)`, whose part fields increase strictly from 1 to
that count, and whose payload bytes concatenate in order to the original
payload bytes. -/
theorem C1_amended (m : wire.Message) (limit : Nat)
    (hdata : ∀ b ∈ m.data, b < 256)
    (hplen : limit < (wire.payload_bytes_to_string m.data).length)
    (hhead : m.get_header_size < limit)
    (heven : (limit - m.get_header_size) % 2 = 0)
    (htot255 : (partitioning.Partitioner.compute_total_parts limit m.get_header_size
        (wire.payload_bytes_to_string m.data).length).1 ≤ 255) :
    ∃ parts, partitioning.Partitioner.partition m limit = .ok parts ∧
      parts.length = ((wire.payload_bytes_to_string m.data).length
          + (limit - m.get_header_size) - 1) / (limit - m.get_header_size) ∧
      parts.map (fun p => p.part)
        = (List.range' 1 parts.length).map
            (fun i => (⟨i, parts.length⟩ : partitioning.Part)) ∧
      (parts.map wire.Message.payload).flatten = m.data := by
  obtain ⟨a, ha2⟩ : ∃ a, limit - m.get_header_size = 2 * a :=
    ⟨(limit - m.get_header_size) / 2, by omega⟩
  have ha : 0 < a := by omega
  have hplen2 := wire.pbts_length m.data
  have hL : 1 ≤ m.data.length := by omega
  obtain ⟨T, hT⟩ : ∃ t, (partitioning.Partitioner.compute_total_parts limit
      m.get_header_size (wire.payload_bytes_to_string m.data).length).1 = t := ⟨_, rfl⟩
  rw [hT] at htot255
  have hT2 : (if 2 * m.data.length % (2 * a) > 0 then 2 * m.data.length / (2 * a) + 1
      else 2 * m.data.length / (2 * a)) = T := by
    rw [← hT, partitioning.Partitioner.compute_total_parts]
    dsimp only
    rw [hplen2, ha2]
  obtain ⟨hlow, hhigh, hT1, hceil⟩ :=
    partitioning.ceil_bounds m.data.length a T ha hL hT2
  have hgo := partitioning.Partitioner.partitionGo_even m.data m.direction T a hdata ha
    htot255 hlow hhigh T 1 0 (by omega) (by omega)
  have hcheck : partitioning.Partitioner.check_is_partitionable m limit
      = .ok (wire.payload_bytes_to_string m.data) := by
    rw [partitioning.Partitioner.check_is_partitionable, if_neg (by omega),
      if_neg (by omega)]
  refine ⟨(List.range' 1 T).map (fun i =>
      (⟨if i = T then m.data.drop ((i - 1) * a) else (m.data.drop ((i - 1) * a)).take a,
        m.direction, ⟨i, T⟩⟩ : wire.Message)), ?_, ?_, ?_, ?_⟩
  · rw [partitioning.Partitioner.partition]
    rw [hcheck]
    dsimp only
    have hp2 : (partitioning.Partitioner.compute_total_parts limit m.get_header_size
        (wire.payload_bytes_to_string m.data).length).2 = 2 * a := ha2
    rw [hT, hp2]
    exact hgo
  · rw [List.length_map, List.length_range']
    rw [hplen2, ha2]
    exact hceil.symm
  · rw [List.length_map, List.length_range']
    rw [List.map_map]
    rfl
  · rw [List.map_map]
    exact partitioning.chunks_flatten m.data T a hT1 hhigh

/-- Witness for the amended C1: the same 16-byte frame with limit 30 (slice
size 4, even) partitions into parts that satisfy every conclusion of the
amended claim. -/
theorem C1_amended_witness :
    ∃ parts, partitioning.Partitioner.partition (wire.Message.from_bytes
        [1, 2, 3, 4, 5, 6, 7, 8, 9, 10, 11, 12, 13, 14, 15, 16] .Serverbound) 30
        = .ok parts ∧
      parts.length = ((wire.payload_bytes_to_string (wire.Message.from_bytes
          [1, 2, 3, 4, 5, 6, 7, 8, 9, 10, 11, 12, 13, 14, 15, 16] .Serverbound).data).length
          + (30 - (wire.Message.from_bytes [1, 2, 3, 4, 5, 6, 7, 8, 9, 10, 11, 12, 13, 14,
            15, 16] .Serverbound).get_header_size) - 1)
          / (30 - (wire.Message.from_bytes [1, 2, 3, 4, 5, 6, 7, 8, 9, 10, 11, 12, 13, 14,
            15, 16] .Serverbound).get_header_size) ∧
      parts.map (fun p => p.part)
        = (List.range' 1 parts.length).map
            (fun i => (⟨i, parts.length⟩ : partitioning.Part)) ∧
      (parts.map wire.Message.payload).flatten
        = (wire.Message.from_bytes [1, 2, 3, 4, 5, 6, 7, 8, 9, 10, 11, 12, 13, 14, 15, 16]
            .Serverbound).data :=
  C1_amended (wire.Message.from_bytes [1, 2, 3, 4, 5, 6, 7, 8, 9, 10, 11, 12, 13, 14, 15, 16]
      .Serverbound) 30
    (by decide) (by decide) (by decide) (by decide) (by decide)

namespace wire


theorem get_header_size_add (m : Message) :
    m.get_header_size + (payload_bytes_to_string m.data).length
      = (Message.toString m).length := by
  rw [Message.get_header_size]
  have h : (payload_bytes_to_string m.data).length ≤ (Message.toString m).length := by
    rw [Message.toString]
    simp only [List.length_append, List.length_cons]
    omega
  omega

theorem toString_ne_nil (m : Message) : Message.toString m ≠ [] := by
  rw [Message.toString]
  simp

end wire

namespace partitioning


theorem Partitioner.partition_single (m : wire.Message) (limit : Nat)
    (hdata : ∀ b ∈ m.data, b < 256)
    (hL : 0 < m.data.length)
    (hfit : (wire.Message.toString m).length ≤ limit) :
    Partitioner.partition m limit = .ok [⟨m.data, m.direction, ⟨1, 1⟩⟩] := by
  have hheq := wire.get_header_size_add m
  have hplen2 := wire.pbts_length m.data
  have hhead : m.get_header_size < limit := by omega
  have hcheck : Partitioner.check_is_partitionable m limit
      = .ok (wire.payload_bytes_to_string m.data) := by
    rw [Partitioner.check_is_partitionable, if_neg (by omega), if_neg (by omega)]
  have h1 : (Partitioner.compute_total_parts limit m.get_header_size
      (wire.payload_bytes_to_string m.data).length).1 = 1 := by
    rw [Partitioner.compute_total_parts]
    dsimp only
    rcases eq_or_lt_of_le (show (wire.payload_bytes_to_string m.data).length
        ≤ limit - m.get_header_size by omega) with he | hlt
    · rw [he, Nat.mod_self, Nat.div_self (by omega)]
      simp
    · rw [Nat.mod_eq_of_lt hlt, Nat.div_eq_of_lt hlt, if_pos (by omega)]
  rw [Partitioner.partition, hcheck]
  dsimp only
  rw [h1]
  rw [show List.range' 1 1 = [1] from rfl]
  rw [Partitioner.partitionGo]
  rw [show Part.new 1 1 = .ok ⟨1, 1⟩ from rfl]
  dsimp only
  simp only [ne_eq, eq_self_iff_true, not_true_eq_false, and_false, false_and, if_false,
    Nat.sub_self, Nat.zero_mul, List.drop_zero, Nat.sub_zero, List.take_length]
  rw [if_neg (by
    rw [wire.pbts_length]
    omega)]
  rw [show wire.direction_to_string m.direction ++ Part.toString ⟨1, 1⟩
      ++ wire.payload_bytes_to_string m.data
    = wire.direction_to_string m.direction ++ (Part.toString ⟨1, 1⟩
      ++ wire.payload_bytes_to_string m.data) from List.append_assoc _ _ _]
  rw [show natToString (wire.direction_to_string m.direction ++ (Part.toString ⟨1, 1⟩
        ++ wire.payload_bytes_to_string m.data)).length
      ++ wire.LENGTH_DELIMITER :: (wire.direction_to_string m.direction
        ++ (Part.toString ⟨1, 1⟩ ++ wire.payload_bytes_to_string m.data))
    = wire.recordText m.direction ⟨1, 1⟩ (wire.payload_bytes_to_string m.data) by
      rw [wire.recordText]
      simp]
  rw [wire.from_string_single_record m.direction ⟨1, 1⟩ (by dsimp only; omega)
    (by dsimp only; omega) (by dsimp only; omega) m.data hdata]
  rfl

theorem flatten_singletons (msgs : List wire.Message) :
    (msgs.map (fun m => [m])).flatten = msgs := by
  induction msgs with
  | nil => rfl
  | cons m ms ih => simp [ih]

theorem Aggregator.partitionAll_whole (msgs : List wire.Message)
    (h : ∀ m ∈ msgs, (∀ b ∈ m.data, b < 256) ∧ m.part = ⟨1, 1⟩ ∧ 0 < m.data.length
      ∧ (wire.Message.toString m).length ≤ discord.DiscordBot.MAX_MESSAGE_LENGTH_ALLOWED) :
    Aggregator.partitionAll msgs = .ok (msgs.map (fun m => [m])) := by
  induction msgs with
  | nil => rfl
  | cons m ms ih =>
    rw [Aggregator.partitionAll]
    obtain ⟨hb, hp, hl, hf⟩ := h m (by simp)
    have hsingle := Partitioner.partition_single m
      discord.DiscordBot.MAX_MESSAGE_LENGTH_ALLOWED hb hl hf
    rw [show (⟨m.data, m.direction, ⟨1, 1⟩⟩ : wire.Message) = m by rw [← hp]] at hsingle
    rw [hsingle, ih (fun x hx => h x (by simp [hx]))]
    rfl

theorem Aggregator.disaggregateAll_snoc (cs : List (List Char)) (c : List Char)
    (ms : List wire.Message)
    (h2 : Aggregator.disaggregate c = .ok ms) :
    ∀ out, Aggregator.disaggregateAll cs = .ok out →
    Aggregator.disaggregateAll (cs ++ [c]) = .ok (out ++ ms) := by
  induction cs with
  | nil =>
    intro out h1
    rw [show Aggregator.disaggregateAll [] = .ok [] from rfl] at h1
    cases h1
    rw [List.nil_append]
    rw [Aggregator.disaggregateAll, h2]
    rw [show Aggregator.disaggregateAll [] = .ok [] from rfl]
    simp
  | cons c0 cs ih =>
    intro out h1
    rw [Aggregator.disaggregateAll] at h1
    rw [show (c0 :: cs) ++ [c] = c0 :: (cs ++ [c]) from rfl]
    rw [Aggregator.disaggregateAll]
    cases hd0 : Aggregator.disaggregate c0 with
    | error e =>
      rw [hd0] at h1
      cases h1
    | ok ms0 =>
      rw [hd0] at h1
      dsimp only at h1 ⊢
      cases hd1 : Aggregator.disaggregateAll cs with
      | error e =>
        rw [hd1] at h1
        cases h1
      | ok rest0 =>
        rw [hd1] at h1
        dsimp only at h1
        cases h1
        rw [ih rest0 hd1]
        dsimp only
        rw [List.append_assoc]

theorem Aggregator.aggregateGo_disagg :
    ∀ (msgs buf : List wire.Message) (aggregated : List (List Char))
      (prevOut : List wire.Message),
    (∀ m ∈ msgs, (1 ≤ m.part.current ∧ m.part.current ≤ m.part.total
        ∧ m.part.total ≤ 255) ∧ ∀ b ∈ m.data, b < 256) →
    (∀ m ∈ buf, (1 ≤ m.part.current ∧ m.part.current ≤ m.part.total
        ∧ m.part.total ≤ 255) ∧ ∀ b ∈ m.data, b < 256) →
    Aggregator.disaggregateAll aggregated = .ok prevOut →
    Aggregator.disaggregateAll
        (Aggregator.aggregateGo msgs aggregated ((buf.map wire.Message.toString).flatten))
      = .ok (prevOut ++ buf.map (fun m => wire.Message.from_bytes m.data m.direction)
          ++ msgs.map (fun m => wire.Message.from_bytes m.data m.direction)) := by
  intro msgs
  induction msgs with
  | nil =>
    intro buf aggregated prevOut hmsgs hbuf hprev
    rw [Aggregator.aggregateGo]
    simp only [List.map_nil, List.append_nil]
    by_cases hb : buf = []
    · subst hb
      rw [show (([] : List wire.Message).map wire.Message.toString).flatten = [] from rfl]
      rw [if_neg (by simp)]
      simpa using hprev
    · have hne : (buf.map wire.Message.toString).flatten ≠ [] := by
        obtain ⟨m0, bs, rfl⟩ := List.exists_cons_of_ne_nil hb
        simp only [List.map_cons, List.flatten_cons]
        intro hcon
        exact wire.toString_ne_nil m0 (List.append_eq_nil.mp hcon).1
      rw [if_pos hne]
      exact Aggregator.disaggregateAll_snoc aggregated _ _
        (disaggregate_records buf (fun x hx => (hbuf x hx).1) (fun x hx => (hbuf x hx).2))
        prevOut hprev
  | cons pm rest ih =>
    intro buf aggregated prevOut hmsgs hbuf hprev
    rw [Aggregator.aggregateGo]
    by_cases hflush : ((buf.map wire.Message.toString).flatten).length
        + (wire.Message.toString pm).length
        > discord.DiscordBot.MAX_MESSAGE_LENGTH_ALLOWED
    · rw [if_pos hflush]
      have hsnoc := Aggregator.disaggregateAll_snoc aggregated
        ((buf.map wire.Message.toString).flatten)
        (buf.map (fun m => wire.Message.from_bytes m.data m.direction))
        (disaggregate_records buf (fun x hx => (hbuf x hx).1) (fun x hx => (hbuf x hx).2))
        prevOut hprev
      rw [show wire.Message.toString pm
          = (([pm] : List wire.Message).map wire.Message.toString).flatten by simp]
      rw [ih [pm] (aggregated ++ [(buf.map wire.Message.toString).flatten])
        (prevOut ++ buf.map (fun m => wire.Message.from_bytes m.data m.direction))
        (fun x hx => hmsgs x (by simp [hx]))
        (fun x hx => by
          rw [List.mem_singleton.mp hx]
          exact hmsgs pm (by simp))
        hsnoc]
      simp
    · rw [if_neg hflush]
      rw [show (buf.map wire.Message.toString).flatten ++ wire.Message.toString pm
          = ((buf ++ [pm]).map wire.Message.toString).flatten by simp]
      rw [ih (buf ++ [pm]) aggregated prevOut
        (fun x hx => hmsgs x (by simp [hx]))
        (fun x hx => by
          rcases List.mem_append.mp hx with hx1 | hx1
          · exact hbuf x hx1
          · rw [List.mem_singleton.mp hx1]
            exact hmsgs pm (by simp))
        hprev]
      simp

end partitioning


/-- C3, counterexample. The claim promises `disaggregate ∘ aggregate = id` for
every list of whole frames whose texts fit the platform budget. A whole frame
with an empty payload satisfies both premises, yet `Aggregator::aggregate`
drops it entirely (its partition yields zero parts), so the round trip returns
the empty list instead of the original singleton. -/
theorem C3_counterexample :
    (wire.Message.from_bytes [] .Serverbound).part = ⟨1, 1⟩ ∧
    (wire.Message.toString (wire.Message.from_bytes [] .Serverbound)).length
      ≤ discord.DiscordBot.MAX_MESSAGE_LENGTH_ALLOWED ∧
    partitioning.Aggregator.aggregate [wire.Message.from_bytes [] .Serverbound]
      = .ok [] ∧
    partitioning.Aggregator.disaggregateAll [] = .ok ([] : List wire.Message) ∧
    ([] : List wire.Message) ≠ [wire.Message.from_bytes [] .Serverbound] := by
  decide

/-- C3, amended: for every list of whole frames (part `(1, 1)`, byte payloads,
each payload non-empty) whose record texts fit the platform budget,
aggregating and then disaggregating every produced string in order yields
exactly the original frames: same payloads, directions, parts and order. -/
theorem C3_amended (msgs : List wire.Message)
    (h : ∀ m ∈ msgs, (∀ b ∈ m.data, b < 256) ∧ m.part = ⟨1, 1⟩ ∧ 0 < m.data.length
      ∧ (wire.Message.toString m).length
        ≤ discord.DiscordBot.MAX_MESSAGE_LENGTH_ALLOWED) :
    ∃ aggs, partitioning.Aggregator.aggregate msgs = .ok aggs ∧
      partitioning.Aggregator.disaggregateAll aggs = .ok msgs := by
  have hagg : partitioning.Aggregator.aggregate msgs
      = .ok (partitioning.Aggregator.aggregateGo msgs [] []) := by
    rw [partitioning.Aggregator.aggregate, partitioning.Aggregator.partitionAll_whole msgs h]
    dsimp only
    rw [partitioning.flatten_singletons]
  refine ⟨_, hagg, ?_⟩
  have hrt := partitioning.Aggregator.aggregateGo_disagg msgs [] [] []
    (fun m hm => ⟨by rw [(h m hm).2.1]; exact ⟨le_refl 1, le_refl 1, by dsimp only; omega⟩, (h m hm).1⟩)
    (by simp)
    rfl
  have hmap : msgs.map (fun m => wire.Message.from_bytes m.data m.direction) = msgs := by
    have heach : ∀ m ∈ msgs, wire.Message.from_bytes m.data m.direction = m := by
      intro m hm
      rw [wire.Message.from_bytes, ← (h m hm).2.1]
    rw [List.map_congr_left heach]
    exact List.map_id msgs
  rw [show (([] : List wire.Message).map wire.Message.toString).flatten = [] from rfl] at hrt
  rw [hmap] at hrt
  simpa using hrt

/-- Witness for the amended C3: a single two-byte frame round-trips through
aggregate and disaggregate. -/
theorem C3_amended_witness :
    ∃ aggs, partitioning.Aggregator.aggregate
        [wire.Message.from_bytes [72, 105] .Clientbound] = .ok aggs ∧
      partitioning.Aggregator.disaggregateAll aggs
        = .ok [wire.Message.from_bytes [72, 105] .Clientbound] :=
  C3_amended [wire.Message.from_bytes [72, 105] .Clientbound] (by decide)


/-- C4: refuted as a code bug. With an empty lane, fragment 1 of 2 is cached
and `cache_or_merge_message` returns `Ok(None)`; when the final fragment 2 of
2 then arrives, the next-part branch fires before the last-part branch, the
buffer is replaced by `(vec![message], now)`, and the call again returns
`Ok(None)`: no merged whole frame is ever emitted for an in-order sequence,
and the payload of fragment 1 is discarded from the cache. -/
theorem C4_code_bug :
    discord.cache_or_merge_message ⟨[], 0⟩ 0
        (⟨[1], .Serverbound, ⟨1, 2⟩⟩ : wire.Message)
      = .ok (none, ⟨[(0, ([⟨[1], .Serverbound, ⟨1, 2⟩⟩], 0))], 0⟩) ∧
    discord.cache_or_merge_message
        ⟨[(0, ([⟨[1], .Serverbound, ⟨1, 2⟩⟩], 0))], 0⟩ 1
        (⟨[2], .Serverbound, ⟨2, 2⟩⟩ : wire.Message)
      = .ok (none, ⟨[(0, ([⟨[2], .Serverbound, ⟨2, 2⟩⟩], 1))], 0⟩) := by
  decide

/-- C6: refuted as a code bug. `Handler::message` sends the stop broadcast on
a halt frame but lacks a `return`, so the halt frame continues into the
direction filter and the cache path; since its part is `(1, 1)`,
`cache_or_merge_message` returns it whole and the handler enqueues the halt
frame itself to the TCP channel: stop is signalled and the frame is forwarded,
contradicting `never forwarded`. -/
theorem C6_code_bug :
    wire.Message.is_halt_message (wire.Message.make_halt_message .Serverbound) = true ∧
    (wire.Message.make_halt_message .Serverbound).part = (⟨1, 1⟩ : partitioning.Part) ∧
    discord.Handler.handle_one .Server ⟨[], 0⟩ 0
        (wire.Message.make_halt_message .Serverbound)
      = (true, some (wire.Message.make_halt_message .Serverbound), ⟨[], 0⟩) := by
  decide
